import Mathlib

/-!
# Register codec of the Very Coarse Channelizer driver (`VCC_20`)

A shallow embedding of `vcc.h` / `vcc.cpp`:

* the register file behind `registerRead` / `registerWrite` is an explicit state
  (`Bus`): the 32-bit word held at every address together with the log of the
  accesses made (the driver only forms addresses `base_address + 4 * k`, so the
  words it touches never overlap);
* the machine integers (`uint8_t`, `uint16_t`, `uint32_t`, `uintptr_t`) are naturals
  with an explicit reduction modulo `2 ^ w` wherever the C++ type narrows a value;
* the `float` / `double` expressions of `configure` and `status` are read as exact
  real arithmetic.  They only multiply and divide rationals and `√20`, so every
  value they form is `q` or `q * √20` for a rational `q`; `Num` holds exactly these
  numbers and computes with them without rounding.  Rounding and overflow of the
  float operations are not modelled: the encoder definitions give the integers of
  the code where these do not depend on rounding, as at the gains 0.01, 0.2, 1.0,
  2.0 and the decoded gains `2 ^ s * intrinsic_gain` that the statements about
  the encoder evaluate;
* what C++ leaves open is a parameter (`Target`): the width of `uintptr_t` and the
  integer produced when a floating value that does not fit is converted to an
  unsigned type.
-/

namespace VCC

/-! ## Exact numbers `q` and `q * √20` -/

/-- The real number `coeff` (when `surd = false`) or `coeff * √20` (when `surd = true`). -/
structure Num where
  coeff : ℚ
  surd : Bool
deriving DecidableEq

namespace Num

/-- A rational number as a `Num`. -/
def ofRat (q : ℚ) : Num := ⟨q, false⟩

/-- The number `√20`, the value of `std::sqrt(2 * channels_out)`. -/
def sqrt20 : Num := ⟨1, true⟩

/-- Product: `√20 * √20 = 20`. -/
def mul (x y : Num) : Num :=
  ⟨x.coeff * y.coeff * (if x.surd && y.surd then 20 else 1), xor x.surd y.surd⟩

/-- Reciprocal: `1 / (q * √20) = (1 / (20 * q)) * √20`. -/
def inv (x : Num) : Num :=
  ⟨(x.coeff * (if x.surd then 20 else 1))⁻¹, x.surd⟩

/-- Quotient (the divisor is non-zero wherever the model uses it). -/
def div (x y : Num) : Num := mul x (inv y)

instance : Mul Num := ⟨mul⟩
instance : Div Num := ⟨div⟩

/-- The square of the number, a rational. -/
def sq (x : Num) : ℚ := x.coeff ^ 2 * (if x.surd then 20 else 1)

/-- Order of the real numbers denoted: the sign is the sign of `coeff`, and two
numbers of the same sign compare as their squares do. -/
def le (x y : Num) : Prop :=
  if x.coeff ≤ 0 then 0 ≤ y.coeff ∨ sq y ≤ sq x else 0 < y.coeff ∧ sq x ≤ sq y

instance : LE Num := ⟨le⟩
instance : LT Num := ⟨fun x y => ¬ le y x⟩

instance decLe (x y : Num) : Decidable (le x y) := by
  unfold le
  exact inferInstance

instance (x y : Num) : Decidable (x ≤ y) := decLe x y

instance (x y : Num) : Decidable (x < y) := by
  show Decidable (¬ le y x)
  exact inferInstance

/-- Integer part of the absolute value: `⌊|q|⌋`, and `⌊√(20 q²)⌋` for `q * √20`. -/
def floorAbs (x : Num) : ℕ :=
  if x.surd then Nat.sqrt ⌊sq x⌋₊ else ⌊|x.coeff|⌋₊

/-- Truncation toward zero, the rounding of a C++ floating-to-integer conversion. -/
def trunc (x : Num) : ℤ :=
  if 0 ≤ x.coeff then (floorAbs x : ℤ) else -(floorAbs x : ℤ)

end Num

/-- The real number a `Num` stands for: `r` is `coeff`, or `coeff * √20`. -/
def Num.Denotes (x : Num) (r : ℝ) : Prop :=
  r = (x.coeff : ℝ) * (if x.surd then Real.sqrt 20 else 1)

/-- What is left of a floating value when its fraction is discarded: an integer,
or one of the three values that have no integer part. -/
inductive Trunc where
  | int (z : ℤ)
  | posInf
  | negInf
  | nan
deriving DecidableEq

/-- The integer part of `std::ceil(std::log2(x))` computed exactly: for `x > 0` the
least `k` with `x ≤ 2 ^ k`, that is the least `k` with `x² ≤ 4 ^ k`; `log2(0) = -∞`,
and `log2` of a negative number is NaN.  The rounding of `log2f` (which can return
the integer `k - 1` for a float just above `2 ^ (k - 1)`) and an infinite argument are
not part of this definition. -/
def ceil_log2 (x : Num) : Trunc :=
  if 0 < x.coeff then .int (Int.clog 4 x.sq)
  else if x.coeff = 0 then .negInf
  else .nan

/-- The integer part of `std::log2(n)` for an unsigned integer `n`; `log2(0) = -∞`. -/
def log2_trunc (n : ℕ) : Trunc :=
  if n = 0 then .negInf else .int (Nat.log 2 n)

/-- The integer part of `(x / n) * 65535` for a float `x` and an unsigned integer `n`
converted to float; division by zero gives `±∞` (NaN for `0 / 0`). -/
def scaled_trunc (x : Num) (n : ℕ) : Trunc :=
  if n = 0 then
    (if 0 < x.coeff then .posInf else if x.coeff = 0 then .nan else .negInf)
  else .int (Num.trunc (x / Num.ofRat n * Num.ofRat 65535))

/-! ## The compilation target -/

/-- The two facts about the compilation target that the C++ text does not fix. -/
structure Target where
  /-- Whether `uintptr_t` has 64 bits (otherwise it has 32). -/
  lp64 : Bool
  /-- The integer a conversion to an unsigned type of `bits` bits produces from a
  floating value whose integer part is not representable in that type (undefined
  in C++; only its low `bits` bits are used). -/
  out_of_range : (bits : ℕ) → Trunc → ℕ

/-- Width of `uintptr_t`. -/
def Target.ptr_bits (T : Target) : ℕ := if T.lp64 then 64 else 32

/-- A 64-bit target whose out-of-range conversions keep the low-order bits of the
two's-complement integer part (and give 0 for infinities and NaN). -/
def wrap64 : Target :=
  { lp64 := true
    out_of_range := fun bits t =>
      match t with
      | .int z => (z % (2 ^ bits : ℕ)).toNat
      | _ => 0 }

/-- Conversion `static_cast<uintN_t>(floating value)`: exact when the integer
part fits, the target's choice otherwise. -/
def fptoui (T : Target) (bits : ℕ) : Trunc → ℕ
  | .int z =>
      if 0 ≤ z ∧ z < 2 ^ bits then z.toNat
      else T.out_of_range bits (.int z) % 2 ^ bits
  | t => T.out_of_range bits t % 2 ^ bits

/-! ## Constants and data (`vcc.h`, `vcc.cpp` lines 5-9) -/

def config_pps_frame_count_addr_offset : ℕ := 0x0
def config_fs_sft_scl_addr_offset : ℕ := 0x4
def fs_sft_bit_offset : ℕ := 0
def fs_scl_bit_offset : ℕ := 4
def channels_out : ℕ := 10

/-- Mirror of `struct Config` with its default member initialisers. -/
structure Config where
  sample_rate : ℕ := 3963619800
  pol : ℕ := 0
  channel : ℕ := 0
  input_frame_size : ℕ := 18
  gain : ℚ := 1

/-- The members of a `Config` fit their C++ types
(`uint32_t`, `uint8_t`, `uint16_t`, `uint32_t`). -/
def Config.typed (c : Config) : Prop :=
  c.sample_rate < 2 ^ 32 ∧ c.pol < 2 ^ 8 ∧ c.channel < 2 ^ 16 ∧ c.input_frame_size < 2 ^ 32

/-- The precondition the specification puts on `configure`. -/
def Config.valid (c : Config) : Prop :=
  c.typed ∧ c.input_frame_size ≠ 0 ∧ c.channel < channels_out ∧ c.pol < 2

instance (c : Config) : Decidable c.typed := by
  unfold Config.typed; exact inferInstance

instance (c : Config) : Decidable c.valid := by
  unfold Config.valid; exact inferInstance

/-- Mirror of `struct Status`. -/
structure Status where
  sample_rate : ℕ
  num_channels : ℤ
  num_polarisations : ℤ
  gains : List Num

/-- Mirror of the data members of `class VCC_20`. -/
structure VCC_20 where
  name : String
  base_address : ℕ

/-! ## Register access (`vcc.cpp` lines 16-23) -/

/-- One bus transaction. -/
inductive Access where
  | read (addr : ℕ)
  | write (addr value : ℕ)
deriving DecidableEq

/-- The hardware seen through the volatile accesses: the 32-bit word at every
address, and the transactions made so far (oldest first). -/
structure Bus where
  mem : ℕ → ℕ
  log : List Access

/-- Model of `VCC_20::registerWrite`: one 32-bit store at `addr` (a `uintptr_t`). -/
def registerWrite (T : Target) (addr value : ℕ) (bus : Bus) : Bus :=
  { mem := Function.update bus.mem (addr % 2 ^ T.ptr_bits) (value % 2 ^ 32)
    log := bus.log ++ [Access.write (addr % 2 ^ T.ptr_bits) (value % 2 ^ 32)] }

/-- Model of `VCC_20::registerRead`: one 32-bit load from `addr` (a `uintptr_t`). -/
def registerRead (T : Target) (addr : ℕ) (bus : Bus) : ℕ × Bus :=
  (bus.mem (addr % 2 ^ T.ptr_bits) % 2 ^ 32,
   { bus with log := bus.log ++ [Access.read (addr % 2 ^ T.ptr_bits)] })

/-! ## Gain codec, encoding side (`vcc.cpp` lines 50-55, 62) -/

/-- Line 50: `1.0 / (0.9475 * std::sqrt(2 * channels_out))`. -/
def intrinsic_gain : Num := Num.ofRat 1 / (Num.ofRat 0.9475 * Num.sqrt20)

/-- Line 52: `config.gain / intrinsic_gain`, as the exact quotient.  The `float`
division of the code rounds this quotient and overflows to `+∞` for gains above
about `8.03e37`; neither is part of this definition. -/
def comb_gain (gain : ℚ) : Num := Num.ofRat gain / intrinsic_gain

/-- Model of `std::clamp(v, lo, hi)` on unsigned integers:
`v < lo ? lo : (hi < v ? hi : v)`. -/
def clamp (v lo hi : ℕ) : ℕ := if v < lo then lo else if hi < v then hi else v

/-- Line 53: `std::clamp(static_cast<uint32_t>(std::ceil(std::log2(comb_gain))), 0U, 32767U)`,
on the exact `comb_gain` and the exact `ceil(log2(...))`: the value of the code
wherever `comb_gain` does not overflow and no rounding of the float operations moves
the logarithm across an integer. -/
def int_gain (T : Target) (gain : ℚ) : ℕ :=
  clamp (fptoui T 32 (ceil_log2 (comb_gain gain))) 0 32767

/-- Line 54: `static_cast<uint16_t>(std::log2(int_gain))`. -/
def shift (T : Target) (gain : ℚ) : ℕ :=
  fptoui T 16 (log2_trunc (int_gain T gain))

/-- Line 55: `static_cast<uint16_t>((comb_gain / int_gain) * 65535)`. -/
def scale (T : Target) (gain : ℚ) : ℕ :=
  fptoui T 16 (scaled_trunc (comb_gain gain) (int_gain T gain))

/-- Line 62: the word built from a `uint16_t` shift and a `uint16_t` scale. -/
def pack (shift scale : ℕ) : ℕ :=
  (((shift &&& 0xF) <<< fs_sft_bit_offset) ||| ((scale &&& 0xFFFF) <<< fs_scl_bit_offset)) % 2 ^ 32

/-- Line 58: `config.channel + config.pol * channels_out` as a `uint32_t`. -/
def index (channel pol : ℕ) : ℕ := (channel + pol * channels_out) % 2 ^ 32

/-- Lines 61 and 93: `base_address + config_fs_sft_scl_addr_offset + index * 4`,
computed in `uintptr_t` from a `uint32_t` product. -/
def fs_sft_scl_addr (T : Target) (d : VCC_20) (channel pol : ℕ) : ℕ :=
  (d.base_address + config_fs_sft_scl_addr_offset + (index channel pol * 4) % 2 ^ 32)
    % 2 ^ T.ptr_bits

/-- Line 46: `base_address + config_pps_frame_count_addr_offset` as a `uintptr_t`. -/
def frame_count_addr (T : Target) (d : VCC_20) : ℕ :=
  (d.base_address + config_pps_frame_count_addr_offset) % 2 ^ T.ptr_bits

/-! ## Gain codec, decoding side (`vcc.cpp` lines 97-105) -/

/-- Line 97: `(r_val >> fs_sft_bit_offset) & 0xF`. -/
def unpack_shift (r_val : ℕ) : ℕ := (r_val >>> fs_sft_bit_offset) &&& 0xF

/-- Line 98: `(r_val >> fs_scl_bit_offset) & 0xFFFF`. -/
def unpack_scale (r_val : ℕ) : ℕ := (r_val >>> fs_scl_bit_offset) &&& 0xFFFF

/-- Lines 101-105: the gain computed from the two fields. -/
def decode_gain (shift scale : ℕ) : Num :=
  let int_gain : Num := Num.ofRat ((1 <<< shift : ℕ) : ℚ)
  let comb_gain : Num := (Num.ofRat scale / Num.ofRat 65535) * int_gain
  let intrinsic_gain : Num := Num.ofRat 1 / (Num.ofRat 0.9475 * Num.sqrt20)
  comb_gain * intrinsic_gain

/-- Lines 97-105 on a register word. -/
def decode_word (r_val : ℕ) : Num :=
  decode_gain (unpack_shift r_val) (unpack_scale r_val)

/-! ## Operations of the device -/

/-- Model of `VCC_20::configure` (lines 39-64).  `none` stands for the undefined integer
division by `input_frame_size = 0`, which comes before any register access. -/
def configure (T : Target) (d : VCC_20) (config : Config) (bus : Bus) : Option Bus :=
  if config.input_frame_size = 0 then none
  else
    let bus := registerWrite T (frame_count_addr T d)
      (config.sample_rate / config.input_frame_size) bus
    let w_addr := fs_sft_scl_addr T d config.channel config.pol
    let w_val := pack (shift T config.gain) (scale T config.gain)
    some (registerWrite T w_addr w_val bus)

/-- Model of `VCC_20::deconfigure` (lines 77-83): the gain is overwritten with 1.0,
then `configure` runs. -/
def deconfigure (T : Target) (d : VCC_20) (config : Config) (bus : Bus) : Option Bus :=
  configure T d { config with gain := 1 } bus

/-- Model of `VCC_20::recover` (lines 25-37): the default `Config`, with `channel` and `pol`
set by the two loops. -/
def recover (T : Target) (d : VCC_20) (bus : Bus) : Option Bus :=
  let config : Config := {}
  (List.range 2).foldlM
    (fun bus pol =>
      (List.range 10).foldlM
        (fun bus channel => configure T d { config with channel := channel, pol := pol } bus)
        bus)
    bus

/-- Model of `VCC_20::start` (lines 66-69): no effect. -/
def start (bus : Bus) : Bus := bus

/-- Model of `VCC_20::stop` (lines 71-74): no effect. -/
def stop (_force : Bool) (bus : Bus) : Bus := bus

/-- Body of the inner loop of `VCC_20::status` (lines 93-107).  `none` stands for
the undefined `gains[i]` of a vector with no element `i`. -/
def status_body (T : Target) (d : VCC_20) (pol channel : ℕ) (st : Status × Bus) :
    Option (Status × Bus) :=
  let r_addr := fs_sft_scl_addr T d channel pol
  let (r_val, bus) := registerRead T r_addr st.2
  let shift := unpack_shift r_val % 2 ^ 16
  let scale := unpack_scale r_val % 2 ^ 16
  let gain := decode_gain shift scale
  if channel + pol * 10 < st.1.gains.length then
    some ({ st.1 with gains := st.1.gains.set (channel + pol * 10) gain }, bus)
  else none

/-- Model of `VCC_20::status` (lines 85-122): the two loops, then the frame count,
whose address is held in a `uint32_t` (line 115) before it is passed to
`registerRead`.  The `clear` flag is not used. -/
def status (T : Target) (d : VCC_20) (_clear : Bool) (status : Status) (bus : Bus) :
    Option (Status × Bus) := do
  let st ← (List.range 2).foldlM
    (fun st pol => (List.range 10).foldlM (fun st channel => status_body T d pol channel st) st)
    (status, bus)
  let frame_count_addr := ((d.base_address + config_pps_frame_count_addr_offset)
    % 2 ^ T.ptr_bits) % 2 ^ 32
  let (frame_count, bus) := registerRead T frame_count_addr st.2
  some ({ st.1 with sample_rate := (frame_count * 18) % 2 ^ 32 }, bus)

/-! ## Auxiliary definitions used in the statements and proofs -/

/-- The 20 register addresses read by `status`, in the order of the loops. -/
def status_pairs : List (ℕ × ℕ) :=
  (List.range 2).flatMap (fun pol => (List.range 10).map (fun channel => (pol, channel)))

/-- The gains vector after the loops of `status`: entry `channel + pol * 10` is set,
in loop order, to the decoding of the word of that register. -/
def status_gains (T : Target) (d : VCC_20) (mem : ℕ → ℕ) (gains : List Num) : List Num :=
  status_pairs.foldl
    (fun g p => g.set (p.2 + p.1 * 10) (decode_word (mem (fs_sft_scl_addr T d p.2 p.1) % 2 ^ 32)))
    gains

/-- The reads made by the loops of `status`, in order. -/
def status_reads (T : Target) (d : VCC_20) : List Access :=
  status_pairs.map (fun p => Access.read (fs_sft_scl_addr T d p.2 p.1))

/-- The frame-count address as `status` forms it: held in a `uint32_t` variable. -/
def status_frame_count_addr (T : Target) (d : VCC_20) : ℕ :=
  (d.base_address + config_pps_frame_count_addr_offset) % 2 ^ T.ptr_bits % 2 ^ 32

/-- A device whose register window starts at `0x1000`. -/
def low_device : VCC_20 := ⟨"vcc", 0x1000⟩

/-- A device whose register window starts at `2 ^ 32`, as a 64-bit mapping can. -/
def high_device : VCC_20 := ⟨"vcc", 0x100000000⟩

/-- A register file holding zero everywhere, with an empty log. -/
def zero_bus : Bus := ⟨fun _ => 0, []⟩

/-- A `Status` whose `gains` vector has 20 elements. -/
def blank_status : Status := ⟨0, 0, 0, List.replicate 20 (Num.ofRat 0)⟩

/-- The configuration of the specification's worked example. -/
def example_config : Config :=
  { sample_rate := 18000000, pol := 0, channel := 3, input_frame_size := 18, gain := 2 }

/-- The two stores of one `configure` call on the register file. -/
def configure_stores (T : Target) (d : VCC_20) (v w : ℕ) (m : ℕ → ℕ) (p : ℕ × ℕ) : ℕ → ℕ :=
  Function.update (Function.update m (frame_count_addr T d) v) (fs_sft_scl_addr T d p.2 p.1) w

/-- Line 52 for a gain that is itself a number `q * √20`, as the gains that `status`
decodes are: `gain / intrinsic_gain`. -/
def comb_gain_of (gain : Num) : Num := gain / intrinsic_gain

/-- Line 53 as a function of the value of `comb_gain`. -/
def int_gain_of (T : Target) (comb : Num) : ℕ :=
  clamp (fptoui T 32 (ceil_log2 comb)) 0 32767

/-- Line 54 as a function of the value of `comb_gain`. -/
def shift_of (T : Target) (comb : Num) : ℕ :=
  fptoui T 16 (log2_trunc (int_gain_of T comb))

/-- Line 55 as a function of the value of `comb_gain`. -/
def scale_of (T : Target) (comb : Num) : ℕ :=
  fptoui T 16 (scaled_trunc comb (int_gain_of T comb))

/-! ## Machine-integer facts -/

theorem ptr_bits_cases (T : Target) : T.ptr_bits = 32 ∨ T.ptr_bits = 64 := by
  unfold Target.ptr_bits
  cases T.lp64 <;> simp

theorem unpack_shift_eq (w : ℕ) : unpack_shift w = w % 16 := by
  unfold unpack_shift fs_sft_bit_offset
  have h := Nat.and_pow_two_sub_one_eq_mod w 4
  simpa using h

theorem unpack_scale_eq (w : ℕ) : unpack_scale w = w / 16 % 65536 := by
  unfold unpack_scale fs_scl_bit_offset
  have h := Nat.and_pow_two_sub_one_eq_mod (w >>> 4) 16
  rw [Nat.shiftRight_eq_div_pow] at h
  rw [Nat.shiftRight_eq_div_pow]
  simpa using h

theorem pack_eq (s c : ℕ) : pack s c = s % 16 + c % 65536 * 16 := by
  unfold pack fs_sft_bit_offset fs_scl_bit_offset
  have h1 : s &&& 0xF = s % 16 := by
    simpa using Nat.and_pow_two_sub_one_eq_mod s 4
  have h2 : c &&& 0xFFFF = c % 65536 := by
    simpa using Nat.and_pow_two_sub_one_eq_mod c 16
  rw [h1, h2, Nat.shiftLeft_zero, Nat.lor_comm]
  have h3 : s % 16 < 2 ^ 4 := by omega
  rw [Nat.shiftLeft_eq, Nat.mul_comm, ← Nat.mul_add_lt_is_or h3]
  omega

theorem pack_lt (s c : ℕ) : pack s c < 2 ^ 20 := by
  rw [pack_eq]; omega

theorem index_eq (c : Config) (h : c.typed) :
    index c.channel c.pol * 4 % 2 ^ 32 = (c.channel + c.pol * 10) * 4 := by
  obtain ⟨_, h2, h3, _⟩ := h
  unfold index channels_out
  omega

/-- The address of the shift/scale register as one sum modulo the pointer range. -/
theorem fs_sft_scl_addr_eq (T : Target) (d : VCC_20) (c : Config) (h : c.typed) :
    fs_sft_scl_addr T d c.channel c.pol
      = (d.base_address + 0x4 + (c.channel + c.pol * 10) * 4) % 2 ^ T.ptr_bits := by
  unfold fs_sft_scl_addr config_fs_sft_scl_addr_offset
  rw [index_eq c h]

/-- For a well-typed config the shift/scale register is never the frame-count register. -/
theorem fs_sft_scl_addr_ne_frame_count (T : Target) (d : VCC_20) (c : Config) (h : c.typed) :
    fs_sft_scl_addr T d c.channel c.pol ≠ frame_count_addr T d := by
  rw [fs_sft_scl_addr_eq T d c h]
  obtain ⟨_, h2, h3, _⟩ := h
  unfold frame_count_addr config_pps_frame_count_addr_offset
  rcases ptr_bits_cases T with hp | hp <;> rw [hp] <;> omega

/-- What `configure` does when the divisor is not zero: two stores. -/
theorem configure_eq (T : Target) (d : VCC_20) (c : Config) (bus : Bus)
    (h0 : c.input_frame_size ≠ 0) :
    configure T d c bus = some
      (registerWrite T (fs_sft_scl_addr T d c.channel c.pol) (pack (shift T c.gain) (scale T c.gain))
        (registerWrite T (frame_count_addr T d) (c.sample_rate / c.input_frame_size) bus)) := by
  unfold configure
  simp [h0]

theorem frame_count_addr_mod (T : Target) (d : VCC_20) :
    frame_count_addr T d % 2 ^ T.ptr_bits = frame_count_addr T d := by
  unfold frame_count_addr; exact Nat.mod_mod _ _

theorem fs_sft_scl_addr_mod (T : Target) (d : VCC_20) (ch pol : ℕ) :
    fs_sft_scl_addr T d ch pol % 2 ^ T.ptr_bits = fs_sft_scl_addr T d ch pol := by
  unfold fs_sft_scl_addr; exact Nat.mod_mod _ _

theorem pack_mod (s c : ℕ) : pack s c % 2 ^ 32 = pack s c := by
  unfold pack; exact Nat.mod_mod _ _

theorem frame_count_mod (c : Config) (h : c.typed) :
    c.sample_rate / c.input_frame_size % 2 ^ 32 = c.sample_rate / c.input_frame_size := by
  apply Nat.mod_eq_of_lt
  exact lt_of_le_of_lt (Nat.div_le_self _ _) h.1

/-- The register file after `configure`. -/
theorem configure_mem (T : Target) (d : VCC_20) (c : Config) (bus : Bus)
    (h0 : c.input_frame_size ≠ 0) (ht : c.typed) :
    ∃ bus', configure T d c bus = some bus' ∧
      bus'.mem = Function.update
        (Function.update bus.mem (frame_count_addr T d) (c.sample_rate / c.input_frame_size))
        (fs_sft_scl_addr T d c.channel c.pol) (pack (shift T c.gain) (scale T c.gain)) ∧
      bus'.log = bus.log ++
        [Access.write (frame_count_addr T d) (c.sample_rate / c.input_frame_size),
         Access.write (fs_sft_scl_addr T d c.channel c.pol)
           (pack (shift T c.gain) (scale T c.gain))] := by
  refine ⟨_, configure_eq T d c bus h0, ?_, ?_⟩
  · simp only [registerWrite, frame_count_addr_mod, fs_sft_scl_addr_mod, pack_mod,
      frame_count_mod c ht]
  · simp only [registerWrite, frame_count_addr_mod, fs_sft_scl_addr_mod, pack_mod,
      frame_count_mod c ht, List.append_assoc, List.singleton_append]

/-- One pass of the loop body of `status`, when the output vector has the element. -/
theorem status_body_eq (T : Target) (d : VCC_20) (pol channel : ℕ) (s : Status) (b : Bus)
    (h : channel + pol * 10 < s.gains.length) :
    status_body T d pol channel (s, b) = some
      ({ s with
          gains := s.gains.set (channel + pol * 10)
            (decode_word (b.mem (fs_sft_scl_addr T d channel pol) % 2 ^ 32)) },
       { b with log := b.log ++ [Access.read (fs_sft_scl_addr T d channel pol)] }) := by
  have h1 : ∀ w, unpack_shift w % 2 ^ 16 = unpack_shift w := fun w => by
    rw [unpack_shift_eq]; omega
  have h2 : ∀ w, unpack_scale w % 2 ^ 16 = unpack_scale w := fun w => by
    rw [unpack_scale_eq]; omega
  simp only [status_body, registerRead, fs_sft_scl_addr_mod, h, if_true, h1, h2, decode_word]

theorem status_loops_eq (T : Target) (d : VCC_20) (st : Status × Bus) :
    (List.range 2).foldlM
      (fun st pol => (List.range 10).foldlM (fun st channel => status_body T d pol channel st) st)
      st
    = status_pairs.foldlM (fun st p => status_body T d p.1 p.2 st) st := by
  have e2 : List.range 2 = [0, 1] := by decide
  have e10 : List.range 10 = [0, 1, 2, 3, 4, 5, 6, 7, 8, 9] := by decide
  simp only [status_pairs, e2, e10, List.flatMap_cons, List.flatMap_nil, List.map_cons, List.map_nil,
    List.foldlM_cons, List.foldlM_nil, List.cons_append, List.nil_append, List.append_nil,
    bind_assoc, pure_bind, bind_pure]

theorem status_fold (T : Target) (d : VCC_20) (ps : List (ℕ × ℕ)) :
    ∀ (s : Status) (b : Bus), (∀ p ∈ ps, p.2 + p.1 * 10 < s.gains.length) →
    ps.foldlM (fun st p => status_body T d p.1 p.2 st) (s, b) = some
      ({ s with
          gains := ps.foldl (fun g p => g.set (p.2 + p.1 * 10)
            (decode_word (b.mem (fs_sft_scl_addr T d p.2 p.1) % 2 ^ 32))) s.gains },
       { b with log := b.log ++ ps.map (fun p => Access.read (fs_sft_scl_addr T d p.2 p.1)) }) := by
  induction ps with
  | nil => intro s b _; simp
  | cons p ps ih =>
    intro s b h
    have hp := h p (List.mem_cons_self _ _)
    rw [List.foldlM_cons, status_body_eq T d p.1 p.2 s b hp]
    simp only [Option.some_bind, Option.bind_eq_bind]
    rw [ih]
    · simp
    · intro q hq
      simpa using h q (List.mem_cons_of_mem _ hq)

theorem status_pairs_lt (p : ℕ × ℕ) (h : p ∈ status_pairs) : p.2 + p.1 * 10 < 20 := by
  simp only [status_pairs, List.mem_flatMap, List.mem_range, List.mem_map] at h
  obtain ⟨a, ha, b, hb, rfl⟩ := h
  simp only
  omega

theorem status_gains_length (T : Target) (d : VCC_20) (mem : ℕ → ℕ) (g : List Num) :
    (status_gains T d mem g).length = g.length := by
  unfold status_gains
  generalize status_pairs = ps
  induction ps generalizing g with
  | nil => rfl
  | cons p ps ih => rw [List.foldl_cons, ih, List.length_set]

theorem status_pairs_eq : status_pairs =
    [(0, 0), (0, 1), (0, 2), (0, 3), (0, 4), (0, 5), (0, 6), (0, 7), (0, 8), (0, 9),
     (1, 0), (1, 1), (1, 2), (1, 3), (1, 4), (1, 5), (1, 6), (1, 7), (1, 8), (1, 9)] := by
  decide

theorem status_gains_get (T : Target) (d : VCC_20) (mem : ℕ → ℕ) (g : List Num)
    (hg : 20 ≤ g.length) (channel pol : ℕ) (hc : channel < 10) (hp : pol < 2) :
    (status_gains T d mem g)[channel + pol * 10]?
      = some (decode_word (mem (fs_sft_scl_addr T d channel pol) % 2 ^ 32)) := by
  unfold status_gains
  rw [status_pairs_eq]
  simp only [List.foldl_cons, List.foldl_nil]
  interval_cases pol <;> interval_cases channel <;>
    simp only [List.getElem?_set, List.length_set] <;> simp
  · intro h0; rw [h0] at hg; simp at hg
  all_goals omega

theorem status_gains_get_other (T : Target) (d : VCC_20) (mem : ℕ → ℕ) (g : List Num)
    (j : ℕ) (hj : 20 ≤ j) :
    (status_gains T d mem g)[j]? = g[j]? := by
  unfold status_gains
  rw [status_pairs_eq]
  simp only [List.foldl_cons, List.foldl_nil, List.getElem?_set]
  repeat rw [if_neg (by omega)]

/-- What `status` returns when the output vector has its 20 elements. -/
theorem status_eq (T : Target) (d : VCC_20) (clear : Bool) (out : Status) (bus : Bus)
    (h : 20 ≤ out.gains.length) :
    status T d clear out bus = some
      ({ out with
          sample_rate := bus.mem (status_frame_count_addr T d % 2 ^ T.ptr_bits) % 2 ^ 32 * 18 % 2 ^ 32
          gains := status_gains T d bus.mem out.gains },
       { bus with
          log := bus.log ++ status_reads T d ++
            [Access.read (status_frame_count_addr T d % 2 ^ T.ptr_bits)] }) := by
  unfold status
  rw [status_loops_eq, status_fold]
  · simp [registerRead, status_gains, status_reads, status_frame_count_addr]
  · intro p hp
    have := status_pairs_lt p hp
    omega

/-! ## Claims about `configure`: addressing, packing, frame count -/

/-- C1: for every target, every base address and every valid config (channel in
[0,10), pol in {0,1}, input_frame_size not 0), `configure` returns, its last store
puts the packed shift/scale word at `base_address + 0x4 + (channel + pol*10)*4`
(a `uintptr_t` sum, exact when `base_address + 0x50` fits the pointer range), and the
register there then holds that word; (channel 5, pol 1) is at `base_address + 0x40`
and (channel 3, pol 0) at `base_address + 0x10`. -/
theorem configure_writes_shift_scale_register (T : Target) (d : VCC_20) (c : Config) (bus : Bus)
    (hv : c.valid) :
    ∃ bus', configure T d c bus = some bus' ∧
      (∃ first, bus'.log = bus.log ++ [first,
        Access.write ((d.base_address + 0x4 + (c.channel + c.pol * 10) * 4) % 2 ^ T.ptr_bits)
          (pack (shift T c.gain) (scale T c.gain))]) ∧
      bus'.mem ((d.base_address + 0x4 + (c.channel + c.pol * 10) * 4) % 2 ^ T.ptr_bits)
        = pack (shift T c.gain) (scale T c.gain) ∧
      (d.base_address + 0x50 < 2 ^ T.ptr_bits →
        (d.base_address + 0x4 + (c.channel + c.pol * 10) * 4) % 2 ^ T.ptr_bits
          = d.base_address + 0x4 + (c.channel + c.pol * 10) * 4) ∧
      (c.channel = 5 → c.pol = 1 →
        (d.base_address + 0x4 + (c.channel + c.pol * 10) * 4) % 2 ^ T.ptr_bits
          = (d.base_address + 0x40) % 2 ^ T.ptr_bits) ∧
      (c.channel = 3 → c.pol = 0 →
        (d.base_address + 0x4 + (c.channel + c.pol * 10) * 4) % 2 ^ T.ptr_bits
          = (d.base_address + 0x10) % 2 ^ T.ptr_bits) := by
  obtain ⟨ht, h0, hc, hp⟩ := hv
  obtain ⟨bus', hb, hm, hl⟩ := configure_mem T d c bus h0 ht
  rw [fs_sft_scl_addr_eq T d c ht] at hm hl
  refine ⟨bus', hb, ⟨_, hl⟩, ?_, ?_, ?_, ?_⟩
  · rw [hm, Function.update_same]
  · intro hlt
    apply Nat.mod_eq_of_lt
    unfold channels_out at hc
    omega
  · intro h5 h1
    rw [h5, h1]
  · intro h3 h1
    rw [h3, h1]

/-- C2: the word `configure` packs from a shift and a scale is
`(shift & 0xF) | ((scale & 0xFFFF) << 4)`, its bits 20..31 are zero, the unpacking of
`status` returns `(shift & 0xF, scale & 0xFFFF)`, and a 16-bit pair with `shift ≤ 15`
is recovered unchanged. -/
theorem pack_unpack_round_trip (s c : ℕ) :
    pack s c = (s &&& 0xF) ||| ((c &&& 0xFFFF) <<< 4) ∧
    (∀ i, 20 ≤ i → i < 32 → (pack s c).testBit i = false) ∧
    unpack_shift (pack s c) = s &&& 0xF ∧
    unpack_scale (pack s c) = c &&& 0xFFFF ∧
    (s ≤ 15 → c < 2 ^ 16 → unpack_shift (pack s c) = s ∧ unpack_scale (pack s c) = c) := by
  have h1 : s &&& 0xF = s % 16 := by
    simpa using Nat.and_pow_two_sub_one_eq_mod s 4
  have h2 : c &&& 0xFFFF = c % 65536 := by
    simpa using Nat.and_pow_two_sub_one_eq_mod c 16
  have h3 : s % 16 < 2 ^ 4 := by omega
  refine ⟨?_, ?_, ?_, ?_, ?_⟩
  · rw [pack_eq, h1, h2, Nat.lor_comm, Nat.shiftLeft_eq, Nat.mul_comm,
      ← Nat.mul_add_lt_is_or h3]
    omega
  · intro i hi _
    apply Nat.testBit_eq_false_of_lt
    calc pack s c < 2 ^ 20 := pack_lt s c
      _ ≤ 2 ^ i := Nat.pow_le_pow_right (by norm_num) hi
  · rw [unpack_shift_eq, pack_eq, h1]; omega
  · rw [unpack_scale_eq, pack_eq, h2]; omega
  · intro hs hc
    rw [unpack_shift_eq, unpack_scale_eq, pack_eq]
    omega

/-- C3: for every well-typed config with `input_frame_size ≠ 0`, the first store of
`configure` puts the integer quotient `sample_rate / input_frame_size` (a 32-bit
value) at `base_address + 0x0`, and the register holds it afterwards; for
`sample_rate = 18000000` and `input_frame_size = 18` the value is `1000000`. -/
theorem configure_writes_frame_count (T : Target) (d : VCC_20) (c : Config) (bus : Bus)
    (ht : c.typed) (h0 : c.input_frame_size ≠ 0) :
    ∃ bus', configure T d c bus = some bus' ∧
      (∃ second, bus'.log = bus.log ++
        [Access.write ((d.base_address + 0x0) % 2 ^ T.ptr_bits)
          (c.sample_rate / c.input_frame_size), second]) ∧
      bus'.mem ((d.base_address + 0x0) % 2 ^ T.ptr_bits) = c.sample_rate / c.input_frame_size ∧
      c.sample_rate / c.input_frame_size < 2 ^ 32 ∧
      (c.sample_rate = 18000000 → c.input_frame_size = 18 →
        c.sample_rate / c.input_frame_size = 1000000) := by
  obtain ⟨bus', hb, hm, hl⟩ := configure_mem T d c bus h0 ht
  refine ⟨bus', hb, ⟨_, hl⟩, ?_, ?_, ?_⟩
  · have hne := fs_sft_scl_addr_ne_frame_count T d c ht
    rw [hm]
    show Function.update _ _ _ (frame_count_addr T d) = _
    rw [Function.update_noteq (Ne.symm hne), Function.update_same]
  · exact lt_of_le_of_lt (Nat.div_le_self _ _) ht.1
  · intro h1 h2
    rw [h1, h2]

/-! ## Sample-rate round trip -/

/-- The register file after `configure`, read at one address. -/
theorem configure_mem_at (T : Target) (d : VCC_20) (c : Config) (bus : Bus)
    (h0 : c.input_frame_size ≠ 0) (ht : c.typed) :
    ∃ bus', configure T d c bus = some bus' ∧
      bus'.mem (frame_count_addr T d) = c.sample_rate / c.input_frame_size ∧
      bus'.mem (fs_sft_scl_addr T d c.channel c.pol) = pack (shift T c.gain) (scale T c.gain) ∧
      (∀ a, a ≠ frame_count_addr T d → a ≠ fs_sft_scl_addr T d c.channel c.pol →
        bus'.mem a = bus.mem a) ∧
      bus'.log = bus.log ++
        [Access.write (frame_count_addr T d) (c.sample_rate / c.input_frame_size),
         Access.write (fs_sft_scl_addr T d c.channel c.pol)
           (pack (shift T c.gain) (scale T c.gain))] := by
  obtain ⟨bus', hb, hm, hl⟩ := configure_mem T d c bus h0 ht
  have hne := fs_sft_scl_addr_ne_frame_count T d c ht
  refine ⟨bus', hb, ?_, ?_, ?_, hl⟩
  · rw [hm, Function.update_noteq (Ne.symm hne), Function.update_same]
  · rw [hm, Function.update_same]
  · intro a h1 h2
    rw [hm, Function.update_noteq h2, Function.update_noteq h1]

/-- When the base address lies below `2 ^ 32`, `status` reads the frame count from
the register `configure` wrote, and a sample rate that is a multiple of 18 comes
back unchanged. -/
theorem sample_rate_round_trip_low_base (T : Target) (d : VCC_20) (c : Config) (bus : Bus)
    (clear : Bool) (out : Status) (hv : c.valid) (h18 : c.input_frame_size = 18)
    (hm : 18 ∣ c.sample_rate) (hb : d.base_address % 2 ^ T.ptr_bits < 2 ^ 32)
    (hg : 20 ≤ out.gains.length) :
    ∃ bus1 out2 bus2, configure T d c bus = some bus1 ∧
      status T d clear out bus1 = some (out2, bus2) ∧
      out2.sample_rate = c.sample_rate := by
  obtain ⟨ht, h0, _, _⟩ := hv
  obtain ⟨bus1, hc, hfc, _, _, _⟩ := configure_mem_at T d c bus h0 ht
  refine ⟨bus1, _, _, hc, status_eq T d clear out bus1 hg, ?_⟩
  have ha : status_frame_count_addr T d % 2 ^ T.ptr_bits = frame_count_addr T d := by
    unfold status_frame_count_addr frame_count_addr config_pps_frame_count_addr_offset
    rw [Nat.add_zero, Nat.mod_eq_of_lt hb, Nat.mod_mod]
  show bus1.mem (status_frame_count_addr T d % 2 ^ T.ptr_bits) % 2 ^ 32 * 18 % 2 ^ 32 = _
  rw [ha, hfc, h18]
  have := ht.1
  obtain ⟨k, hk⟩ := hm
  omega

/-! ## Instances of the claims about `configure`; the frame-count address read by `status` -/

theorem configure_writes_shift_scale_register_witness :
    Config.valid { channel := 5, pol := 1 } ∧
    ∃ bus', configure wrap64 low_device { channel := 5, pol := 1 } zero_bus = some bus' ∧
      bus'.mem 0x1040 = pack (shift wrap64 1) (scale wrap64 1) := by
  have hv : Config.valid { channel := 5, pol := 1 } := by decide
  obtain ⟨bus', h1, _, h3, _⟩ :=
    configure_writes_shift_scale_register wrap64 low_device { channel := 5, pol := 1 } zero_bus hv
  exact ⟨hv, bus', h1, h3⟩

theorem pack_unpack_round_trip_witness :
    (3 : ℕ) ≤ 15 ∧ (40000 : ℕ) < 2 ^ 16 ∧
    unpack_shift (pack 3 40000) = 3 ∧ unpack_scale (pack 3 40000) = 40000 :=
  ⟨by decide, by decide,
    (pack_unpack_round_trip 3 40000).2.2.2.2 (by decide) (by decide)⟩

theorem configure_writes_frame_count_witness :
    example_config.typed ∧ example_config.input_frame_size ≠ 0 ∧
    ∃ bus', configure wrap64 low_device example_config zero_bus = some bus' ∧
      bus'.mem 0x1000 = 1000000 := by
  have ht : example_config.typed := by decide
  have h0 : example_config.input_frame_size ≠ 0 := by decide
  obtain ⟨bus', h1, _, h3, _, h5⟩ :=
    configure_writes_frame_count wrap64 low_device example_config zero_bus ht h0
  exact ⟨ht, h0, bus', h1, by rw [← h5 rfl rfl]; exact h3⟩

/-- C4, at a base address of `2 ^ 32` on a 64-bit target: `configure` stores the frame
count `1000000` at `0x100000000`, `status` reads address `0x0` (the address cut to
32 bits) and reports a sample rate of 0 where 18000000 was configured. -/
theorem sample_rate_round_trip_high_base :
    example_config.valid ∧ 18 ∣ example_config.sample_rate ∧
    ∃ bus1 out2 bus2, configure wrap64 high_device example_config zero_bus = some bus1 ∧
      bus1.mem 0x100000000 = 1000000 ∧
      status wrap64 high_device false blank_status bus1 = some (out2, bus2) ∧
      bus2.log.getLast? = some (Access.read 0x0) ∧
      out2.sample_rate = 0 := by
  have hv : example_config.valid := by decide
  obtain ⟨bus1, hc, hfc, _, hfr, _⟩ :=
    configure_mem_at wrap64 high_device example_config zero_bus hv.2.1 hv.1
  have hg : 20 ≤ blank_status.gains.length := by decide
  have ha : status_frame_count_addr wrap64 high_device % 2 ^ wrap64.ptr_bits = 0 := by decide
  have h0 : bus1.mem 0 = 0 := by
    rw [hfr 0 (by decide) (by decide)]; rfl
  refine ⟨hv, by decide, bus1, _, _, hc, hfc, status_eq wrap64 high_device false blank_status bus1 hg,
    ?_, ?_⟩
  · simp only [ha, List.getLast?_append, List.getLast?_singleton, Option.or_some]
  · show bus1.mem (status_frame_count_addr wrap64 high_device % 2 ^ wrap64.ptr_bits) % 2 ^ 32
      * 18 % 2 ^ 32 = 0
    rw [ha, h0]
    decide

/-! ## Evaluating the exact arithmetic -/

theorem Num.mul_def (x y : Num) :
    x * y = ⟨x.coeff * y.coeff * (if x.surd && y.surd then 20 else 1), xor x.surd y.surd⟩ := rfl

theorem Num.div_def (x y : Num) : x / y = x * Num.inv y := rfl

theorem Num.le_def (x y : Num) :
    x ≤ y ↔ if x.coeff ≤ 0 then 0 ≤ y.coeff ∨ Num.sq y ≤ Num.sq x
      else 0 < y.coeff ∧ Num.sq x ≤ Num.sq y := Iff.rfl

theorem Num.lt_def (x y : Num) : x < y ↔ ¬ y ≤ x := Iff.rfl

/-! ## The exact numbers are the real numbers they stand for -/

theorem sqrt20_pos : (0 : ℝ) < Real.sqrt 20 := Real.sqrt_pos.2 (by norm_num)

theorem sqrt20_sq : Real.sqrt 20 ^ 2 = 20 := Real.sq_sqrt (by norm_num)

theorem Num.denotes_ofRat (q : ℚ) : (Num.ofRat q).Denotes q := by
  simp [Num.Denotes, Num.ofRat]

theorem Num.denotes_sqrt20 : Num.sqrt20.Denotes (Real.sqrt 20) := by
  simp [Num.Denotes, Num.sqrt20]

theorem Num.denotes_mul {x y : Num} {r s : ℝ} (hx : x.Denotes r) (hy : y.Denotes s) :
    (x * y).Denotes (r * s) := by
  unfold Num.Denotes at *
  rw [hx, hy, Num.mul_def]
  have h := sqrt20_sq
  cases x.surd <;> cases y.surd <;> simp <;>
    first
    | ring1
    | linear_combination ((x.coeff : ℝ) * y.coeff) * h

theorem Num.denotes_inv {x : Num} {r : ℝ} (hx : x.Denotes r) : (Num.inv x).Denotes r⁻¹ := by
  unfold Num.Denotes at *
  rw [hx]
  have h := sqrt20_sq
  have hp := sqrt20_pos
  cases hs : x.surd <;> simp [Num.inv, hs]
  by_cases hc : (x.coeff : ℝ) = 0
  · simp [hc]
  · field_simp
    linear_combination (-(x.coeff : ℝ)) * h

theorem Num.denotes_div {x y : Num} {r s : ℝ} (hx : x.Denotes r) (hy : y.Denotes s) :
    (x / y).Denotes (r / s) := by
  rw [Num.div_def, div_eq_mul_inv]
  exact Num.denotes_mul hx (Num.denotes_inv hy)

theorem Num.denotes_sq {x : Num} {r : ℝ} (hx : x.Denotes r) : ((x.sq : ℚ) : ℝ) = r ^ 2 := by
  unfold Num.Denotes at hx
  rw [hx, Num.sq]
  have h := sqrt20_sq
  cases x.surd
  · simp
  · simp only [if_true]
    push_cast
    linear_combination (-(x.coeff : ℝ) ^ 2) * h

theorem sign_mul_pos (a u : ℝ) (hu : 0 < u) :
    (a ≤ 0 ↔ a * u ≤ 0) ∧ (0 ≤ a ↔ 0 ≤ a * u) ∧ (0 < a ↔ 0 < a * u) := by
  refine ⟨⟨fun h => mul_nonpos_of_nonpos_of_nonneg h hu.le, fun h => ?_⟩,
    ⟨fun h => mul_nonneg h hu.le, fun h => ?_⟩,
    ⟨fun h => mul_pos h hu, fun h => ?_⟩⟩
  · by_contra hc
    exact absurd h (not_le.2 (mul_pos (not_le.1 hc) hu))
  · by_contra hc
    exact absurd h (not_le.2 (mul_neg_of_neg_of_pos (not_le.1 hc) hu))
  · by_contra hc
    exact absurd h (not_lt.2 (mul_nonpos_of_nonpos_of_nonneg (not_lt.1 hc) hu.le))

theorem Num.denotes_sign {x : Num} {r : ℝ} (hx : x.Denotes r) :
    (x.coeff ≤ 0 ↔ r ≤ 0) ∧ (0 ≤ x.coeff ↔ 0 ≤ r) ∧ (0 < x.coeff ↔ 0 < r) := by
  unfold Num.Denotes at hx
  have hu : (0 : ℝ) < (if x.surd then Real.sqrt 20 else 1) := by
    cases x.surd <;> simp [sqrt20_pos]
  obtain ⟨h1, h2, h3⟩ := sign_mul_pos (x.coeff : ℝ) _ hu
  rw [hx]
  exact ⟨by rw [← h1]; exact_mod_cast Iff.rfl, by rw [← h2]; exact_mod_cast Iff.rfl,
    by rw [← h3]; exact_mod_cast Iff.rfl⟩

/-- The order of `Num` is the order of the real numbers. -/
theorem Num.denotes_le {x y : Num} {r s : ℝ} (hx : x.Denotes r) (hy : y.Denotes s) :
    x ≤ y ↔ r ≤ s := by
  obtain ⟨hx1, _, _⟩ := Num.denotes_sign hx
  obtain ⟨_, hy2, hy3⟩ := Num.denotes_sign hy
  have hxs := Num.denotes_sq hx
  have hys := Num.denotes_sq hy
  have hsq : ∀ a b : Num, ∀ p q : ℝ, ((a.sq : ℚ) : ℝ) = p ^ 2 → ((b.sq : ℚ) : ℝ) = q ^ 2 →
      (a.sq ≤ b.sq ↔ p ^ 2 ≤ q ^ 2) := by
    intro a b p q ha hb
    rw [← ha, ← hb]
    exact_mod_cast Iff.rfl
  rw [Num.le_def]
  split
  · rename_i h
    have hr : r ≤ 0 := hx1.1 h
    rw [hy2, hsq y x s r hys hxs]
    constructor
    · rintro (h0 | h2)
      · linarith
      · by_contra hc
        push_neg at hc
        nlinarith
    · intro hrs
      by_cases h0 : 0 ≤ s
      · exact Or.inl h0
      · right
        push_neg at h0
        nlinarith
  · rename_i h
    have hr : 0 < r := by
      by_contra hc
      exact h (hx1.2 (not_lt.1 hc))
    rw [hy3, hsq x y r s hxs hys]
    constructor
    · rintro ⟨h0, h2⟩
      by_contra hc
      push_neg at hc
      nlinarith
    · intro hrs
      refine ⟨by linarith, ?_⟩
      nlinarith

theorem Num.denotes_lt {x y : Num} {r s : ℝ} (hx : x.Denotes r) (hy : y.Denotes s) :
    x < y ↔ r < s := by
  rw [Num.lt_def, Num.denotes_le hy hx, not_le]


/-- The integer part of a square root is the integer square root of the integer part. -/
theorem natFloor_sqrt (y : ℝ) (hy : 0 ≤ y) : ⌊Real.sqrt y⌋₊ = Nat.sqrt ⌊y⌋₊ := by
  apply eq_of_forall_le_iff
  intro n
  rw [Nat.le_floor_iff (Real.sqrt_nonneg y), Real.le_sqrt (Nat.cast_nonneg n) hy, Nat.le_sqrt,
    Nat.le_floor_iff hy]
  push_cast
  rw [sq]

theorem natFloor_ratCast (q : ℚ) : ⌊(q : ℝ)⌋₊ = ⌊q⌋₊ := by
  rw [← Int.floor_toNat, Rat.floor_cast, Int.floor_toNat]

theorem Num.denotes_abs {x : Num} {r : ℝ} (hx : x.Denotes r) :
    ⌊|r|⌋₊ = x.floorAbs := by
  unfold Num.floorAbs
  cases hs : x.surd
  · have hr : r = (x.coeff : ℝ) := by
      unfold Num.Denotes at hx
      rw [hx, hs]
      simp
    simp only [Bool.false_eq_true, if_false]
    rw [hr, ← Rat.cast_abs, natFloor_ratCast]
  · simp only [if_true]
    have h2 := Num.denotes_sq hx
    have : |r| = Real.sqrt (((x.sq : ℚ) : ℝ)) := by
      rw [h2, Real.sqrt_sq_eq_abs]
    rw [this, natFloor_sqrt _ (by rw [h2]; positivity), natFloor_ratCast]

/-- Truncation: `Num.trunc` is truncation toward zero of the real number. -/
theorem Num.denotes_trunc {x : Num} {r : ℝ} (hx : x.Denotes r) :
    x.trunc = if 0 ≤ r then ⌊r⌋ else ⌈r⌉ := by
  obtain ⟨_, h2, _⟩ := Num.denotes_sign hx
  unfold Num.trunc
  rw [← Num.denotes_abs hx]
  by_cases h : 0 ≤ r
  · rw [if_pos (h2.2 h), if_pos h, abs_of_nonneg h, Int.natCast_floor_eq_floor h]
  · have hneg : r < 0 := not_le.1 h
    rw [if_neg (fun hc => h (h2.1 hc)), if_neg h, abs_of_neg hneg,
      Int.natCast_floor_eq_floor (by linarith), Int.floor_neg, neg_neg]

/-- Logarithm: `ceil_log2` is `⌈log₂ r⌉` for a positive real `r`. -/
theorem ceil_log2_denotes {x : Num} {r : ℝ} (hx : x.Denotes r) (hr : 0 < r) :
    ceil_log2 x = .int ⌈Real.logb 2 r⌉ := by
  obtain ⟨_, _, h3⟩ := Num.denotes_sign hx
  have hsq := Num.denotes_sq hx
  have hq : 0 < x.sq := by
    have : (0 : ℝ) < ((x.sq : ℚ) : ℝ) := by rw [hsq]; positivity
    exact_mod_cast this
  unfold ceil_log2
  rw [if_pos (h3.2 hr)]
  congr 1
  have h2 : ⌈Real.logb 2 r⌉ = Int.clog 2 r := by
    have := @Real.ceil_logb_natCast 2 r hr.le
    simpa using this
  rw [h2]
  apply eq_of_forall_ge_iff
  intro k
  rw [← Int.le_zpow_iff_clog_le (by norm_num) hq, ← Int.le_zpow_iff_clog_le (by norm_num) hr]
  have h4 : ((4 : ℕ) : ℝ) ^ k = (((2 : ℕ) : ℝ) ^ k) ^ 2 := by
    rw [← zpow_natCast (((2 : ℕ) : ℝ) ^ k) 2, ← zpow_mul, mul_comm, zpow_mul]
    norm_num
  have hpos : (0 : ℝ) < ((2 : ℕ) : ℝ) ^ k := by positivity
  have h5 : (x.sq ≤ ((4 : ℕ) : ℚ) ^ k) ↔ (((x.sq : ℚ) : ℝ) ≤ ((4 : ℕ) : ℝ) ^ k) := by
    rw [← Rat.cast_le (K := ℝ)]
    push_cast
    rfl
  rw [h5, hsq, h4]
  constructor
  · intro h
    exact (pow_le_pow_iff_left₀ hr.le hpos.le (by norm_num)).1 h
  · intro h
    exact pow_le_pow_left₀ hr.le h 2

/-- Logarithm of an integer: `log2_trunc` is `⌊log₂ n⌋` for a positive integer `n`. -/
theorem log2_trunc_denotes (n : ℕ) (hn : n ≠ 0) :
    log2_trunc n = .int ⌊Real.logb 2 (n : ℝ)⌋ := by
  unfold log2_trunc
  rw [if_neg hn]
  congr 1
  have := @Real.floor_logb_natCast 2 (n : ℝ) (Nat.cast_nonneg n)
  rw [Int.log_natCast] at this
  simpa using this.symm

theorem intrinsic_gain_eq : intrinsic_gain = ⟨20 / 379, true⟩ := by
  simp only [intrinsic_gain, Num.div_def, Num.mul_def, Num.inv, Num.ofRat, Num.sqrt20]
  norm_num

theorem comb_gain_eq (gain : ℚ) : comb_gain gain = ⟨gain * (379 / 400), true⟩ := by
  simp only [comb_gain, intrinsic_gain_eq, Num.div_def, Num.mul_def, Num.inv, Num.ofRat]
  norm_num

theorem decode_gain_eq (s c : ℕ) :
    decode_gain s c = ⟨(c : ℚ) / 65535 * 2 ^ s * (20 / 379), true⟩ := by
  simp only [decode_gain, Num.div_def, Num.mul_def, Num.inv, Num.ofRat, Num.sqrt20,
    Nat.one_shiftLeft]
  norm_num
  ring

theorem clog_eq_of_bounds {b : ℕ} (hb : 1 < b) {r : ℚ} (hr : 0 < r) {k : ℤ}
    (h1 : (b : ℚ) ^ (k - 1) < r) (h2 : r ≤ (b : ℚ) ^ k) : Int.clog b r = k := by
  apply le_antisymm
  · exact (Int.le_zpow_iff_clog_le hb hr).1 h2
  · have := (Int.zpow_lt_iff_lt_clog hb hr).1 h1
    omega

theorem fptoui_lt (T : Target) (bits : ℕ) (t : Trunc) : fptoui T bits t < 2 ^ bits := by
  have hpos : 0 < 2 ^ bits := Nat.two_pow_pos bits
  cases t with
  | int z =>
    simp only [fptoui]
    split
    · rename_i h
      have h3 : (z.toNat : ℤ) = z := Int.toNat_of_nonneg h.1
      have : (z.toNat : ℤ) < ((2 ^ bits : ℕ) : ℤ) := by rw [h3]; exact_mod_cast h.2
      exact_mod_cast this
    · exact Nat.mod_lt _ hpos
  | posInf => exact Nat.mod_lt _ hpos
  | negInf => exact Nat.mod_lt _ hpos
  | nan => exact Nat.mod_lt _ hpos

theorem fptoui_int_of_fits (T : Target) (bits : ℕ) (n : ℕ) (h : n < 2 ^ bits) :
    fptoui T bits (.int n) = n := by
  simp only [fptoui]
  rw [if_pos]
  · simp
  · exact ⟨by positivity, by exact_mod_cast h⟩

theorem int_gain_two (T : Target) : int_gain T 2 = 4 := by
  have h : ceil_log2 (comb_gain 2) = .int ((4 : ℕ) : ℤ) := by
    rw [comb_gain_eq]
    unfold ceil_log2
    rw [if_pos (by norm_num)]
    congr 1
    apply clog_eq_of_bounds (by norm_num) <;> norm_num [Num.sq]
  unfold int_gain
  rw [h, fptoui_int_of_fits T 32 4 (by norm_num)]
  decide

theorem shift_two (T : Target) : shift T 2 = 2 := by
  have h : log2_trunc 4 = .int ((2 : ℕ) : ℤ) := by
    unfold log2_trunc
    rw [if_neg (by norm_num)]
    congr 2
    rw [Nat.log_eq_iff (by norm_num)]
    norm_num
  unfold shift
  rw [int_gain_two, h, fptoui_int_of_fits T 16 2 (by norm_num)]

theorem decode_word_pack (s c : ℕ) (hs : s ≤ 15) (hc : c < 2 ^ 16) :
    decode_word (pack s c) = decode_gain s c := by
  unfold decode_word
  rw [unpack_shift_eq, unpack_scale_eq, pack_eq]
  congr 1 <;> omega

/-- A decoded gain lies below every positive rational whose square exceeds
`20 * (2 ^ s * 20 / 379) ^ 2`: the 16-bit scale contributes a factor of at most 1. -/
theorem decode_gain_lt (s c : ℕ) (hc : c < 2 ^ 16) (y : ℚ) (hy : 0 < y)
    (h : (2 ^ s * (20 / 379) : ℚ) ^ 2 * 20 < y ^ 2) :
    decode_gain s c < Num.ofRat y := by
  rw [Num.lt_def, Num.le_def, decode_gain_eq]
  simp only [Num.ofRat, Num.sq]
  rw [if_neg (not_le.2 hy)]
  rintro ⟨_, h2⟩
  have hc1 : (c : ℚ) / 65535 ≤ 1 := by
    rw [div_le_one (by norm_num)]
    have : c ≤ 65535 := by omega
    exact_mod_cast this
  have hc0 : (0 : ℚ) ≤ (c : ℚ) / 65535 := by positivity
  have hk : (0 : ℚ) ≤ 2 ^ s * (20 / 379) := by positivity
  have h3 : (c : ℚ) / 65535 * 2 ^ s * (20 / 379) ≤ 2 ^ s * (20 / 379) := by
    calc (c : ℚ) / 65535 * 2 ^ s * (20 / 379) = (c : ℚ) / 65535 * (2 ^ s * (20 / 379)) := by ring
      _ ≤ 1 * (2 ^ s * (20 / 379)) := by gcongr
      _ = 2 ^ s * (20 / 379) := one_mul _
  have h4 : ((c : ℚ) / 65535 * 2 ^ s * (20 / 379)) ^ 2 ≤ (2 ^ s * (20 / 379)) ^ 2 :=
    pow_le_pow_left₀ (by positivity) h3 2
  simp only [if_true, if_false, Bool.false_eq_true] at h2
  nlinarith

theorem scale_lt (T : Target) (gain : ℚ) : scale T gain < 2 ^ 16 := fptoui_lt T 16 _

theorem shift_lt (T : Target) (gain : ℚ) : shift T gain < 2 ^ 16 := fptoui_lt T 16 _

theorem status_after_configure (T : Target) (d : VCC_20) (c : Config) (bus : Bus)
    (clear : Bool) (out : Status) (hv : c.valid) (hg : 20 ≤ out.gains.length) :
    ∃ bus1 out2 bus2, configure T d c bus = some bus1 ∧
      status T d clear out bus1 = some (out2, bus2) ∧
      out2.gains[c.channel + c.pol * 10]?
        = some (decode_word (pack (shift T c.gain) (scale T c.gain))) := by
  obtain ⟨ht, h0, hc, hp⟩ := hv
  obtain ⟨bus1, h1, _, hfs, _, _⟩ := configure_mem_at T d c bus h0 ht
  refine ⟨bus1, _, _, h1, status_eq T d clear out bus1 hg, ?_⟩
  dsimp only
  rw [status_gains_get T d bus1.mem out.gains hg c.channel c.pol hc hp, hfs, pack_mod]

/-- C5, at gain 2.0: on every target `configure` computes `int_gain = 4` and
`shift = 2`, the scale field holds at most 65535, so the gain decoded from the word
written is less than `0.995 * 2` (it is at most `4 * intrinsic_gain < 0.95`); `status`
after `configure` of the worked example reports such a gain in `gains[3]`. -/
theorem gain_round_trip_at_two (T : Target) (d : VCC_20) (bus : Bus) (clear : Bool)
    (out : Status) (hg : 20 ≤ out.gains.length) :
    int_gain T 2 = 4 ∧ shift T 2 = 2 ∧
    decode_word (pack (shift T 2) (scale T 2)) < Num.ofRat (0.995 * 2) ∧
    ∃ bus1 out2 bus2 g, configure T d example_config bus = some bus1 ∧
      status T d clear out bus1 = some (out2, bus2) ∧
      out2.gains[3]? = some g ∧ g < Num.ofRat (0.995 * 2) := by
  have hlt : decode_word (pack (shift T 2) (scale T 2)) < Num.ofRat (0.995 * 2) := by
    rw [shift_two, decode_word_pack 2 _ (by norm_num) (scale_lt T 2)]
    exact decode_gain_lt 2 _ (scale_lt T 2) _ (by norm_num) (by norm_num)
  refine ⟨int_gain_two T, shift_two T, hlt, ?_⟩
  obtain ⟨bus1, out2, bus2, h1, h2, h3⟩ :=
    status_after_configure T d example_config bus clear out (by decide) hg
  exact ⟨bus1, out2, bus2, _, h1, h2, h3, hlt⟩

theorem scaled_trunc_two : scaled_trunc ⟨2 * (379 / 400), true⟩ 4 = .int 138847 := by
  have hf : ⌊(24676582807809 / 1280 : ℚ)⌋₊ = 19278580318 := by
    rw [Nat.floor_eq_iff (by norm_num)]
    norm_num
  have hq : Nat.sqrt 19278580318 = 138847 := by
    symm
    rw [Nat.eq_sqrt]
    norm_num
  have hv : (⟨2 * (379 / 400), true⟩ / Num.ofRat ((4 : ℕ) : ℚ) * Num.ofRat 65535 : Num)
      = ⟨4967553 / 160, true⟩ := by
    simp only [Num.div_def, Num.mul_def, Num.inv, Num.ofRat]
    norm_num
  have ht : Num.trunc ⟨4967553 / 160, true⟩ = 138847 := by
    have hs : Num.sq ⟨4967553 / 160, true⟩ = 24676582807809 / 1280 := by
      simp only [Num.sq]
      norm_num
    simp only [Num.trunc, Num.floorAbs, hs, hf, hq]
    norm_num
  unfold scaled_trunc
  rw [if_neg (by norm_num), hv, ht]

theorem scale_two_wrap64 : scale wrap64 2 = 7775 := by
  unfold scale
  rw [int_gain_two, comb_gain_eq, scaled_trunc_two]
  simp only [fptoui, wrap64]
  norm_num
  decide

theorem gain_round_trip_at_two_witness :
    20 ≤ blank_status.gains.length ∧
    decode_word (pack (shift wrap64 2) (scale wrap64 2)) = ⟨124400 / 4967553, true⟩ ∧
    ∃ bus1 out2 bus2 g, configure wrap64 low_device example_config zero_bus = some bus1 ∧
      status wrap64 low_device false blank_status bus1 = some (out2, bus2) ∧
      out2.gains[3]? = some g ∧ g < Num.ofRat (0.995 * 2) := by
  refine ⟨by decide, ?_,
    (gain_round_trip_at_two wrap64 low_device zero_bus false blank_status (by decide)).2.2.2⟩
  rw [shift_two, scale_two_wrap64, decode_word_pack 2 7775 (by norm_num) (by norm_num),
    decode_gain_eq]
  norm_num

/-! ## The codec in real arithmetic -/

/-- The constant `intrinsic_gain` is the real number `1 / (0.9475 * √(2 * channels_out))`. -/
theorem intrinsic_gain_denotes :
    intrinsic_gain.Denotes (1 / (0.9475 * Real.sqrt ((2 * channels_out : ℕ) : ℝ))) := by
  have h20 : ((2 * channels_out : ℕ) : ℝ) = 20 := by
    unfold channels_out
    norm_num
  rw [h20]
  have h := Num.denotes_div (Num.denotes_ofRat 1)
    (Num.denotes_mul (Num.denotes_ofRat 0.9475) Num.denotes_sqrt20)
  have e : (((0.9475 : ℚ) : ℝ)) = 0.9475 := by norm_num
  rw [e, Rat.cast_one] at h
  exact h

/-- The value `comb_gain` is the real number `gain / intrinsic_gain`. -/
theorem comb_gain_denotes (gain : ℚ) :
    (comb_gain gain).Denotes
      ((gain : ℝ) / (1 / (0.9475 * Real.sqrt ((2 * channels_out : ℕ) : ℝ)))) :=
  Num.denotes_div (Num.denotes_ofRat gain) intrinsic_gain_denotes

/-- For a positive gain, `int_gain` is the clamp of the conversion of
`⌈log₂ (gain / intrinsic_gain)⌉`, with the logarithm taken in the reals. -/
theorem int_gain_real (T : Target) (gain : ℚ) (hg : 0 < gain) :
    int_gain T gain = clamp (fptoui T 32 (.int
      ⌈Real.logb 2 ((gain : ℝ) / (1 / (0.9475 * Real.sqrt ((2 * channels_out : ℕ) : ℝ))))⌉))
      0 32767 := by
  have hpos : (0 : ℝ) <
      (gain : ℝ) / (1 / (0.9475 * Real.sqrt ((2 * channels_out : ℕ) : ℝ))) := by
    have h20 : (0 : ℝ) < Real.sqrt ((2 * channels_out : ℕ) : ℝ) := by
      apply Real.sqrt_pos.2
      unfold channels_out
      norm_num
    have hgr : (0 : ℝ) < (gain : ℝ) := by exact_mod_cast hg
    positivity
  unfold int_gain
  rw [ceil_log2_denotes (comb_gain_denotes gain) hpos]

/-- For a non-zero `int_gain`, the scale before conversion is the truncation of the
real number `(comb_gain / int_gain) * 65535`. -/
theorem scaled_trunc_real (gain : ℚ) (n : ℕ) (hn : n ≠ 0) (hg : 0 ≤ gain) :
    scaled_trunc (comb_gain gain) n = .int
      ⌊(gain : ℝ) / (1 / (0.9475 * Real.sqrt ((2 * channels_out : ℕ) : ℝ))) / (n : ℝ) * 65535⌋ := by
  have h := Num.denotes_mul
    (Num.denotes_div (comb_gain_denotes gain) (Num.denotes_ofRat (n : ℚ)))
    (Num.denotes_ofRat 65535)
  have e1 : (((n : ℚ)) : ℝ) = (n : ℝ) := by norm_num
  have e2 : (((65535 : ℚ)) : ℝ) = 65535 := by norm_num
  rw [e1, e2] at h
  have hnn : (0 : ℝ) ≤
      (gain : ℝ) / (1 / (0.9475 * Real.sqrt ((2 * channels_out : ℕ) : ℝ))) / (n : ℝ) * 65535 := by
    have hgr : (0 : ℝ) ≤ (gain : ℝ) := by exact_mod_cast hg
    positivity
  unfold scaled_trunc
  rw [if_neg hn, Num.denotes_trunc h, if_pos hnn]

/-- The decoded gain is the real number
`(scale / 65535) * 2 ^ shift * (1 / (0.9475 * √(2 * channels_out)))`. -/
theorem decode_gain_denotes (s c : ℕ) :
    (decode_gain s c).Denotes
      ((c : ℝ) / 65535 * (2 : ℝ) ^ s * (1 / (0.9475 * Real.sqrt ((2 * channels_out : ℕ) : ℝ)))) := by
  have h := Num.denotes_mul
    (Num.denotes_mul (Num.denotes_div (Num.denotes_ofRat (c : ℚ)) (Num.denotes_ofRat 65535))
      (Num.denotes_ofRat (((1 <<< s : ℕ) : ℚ))))
    intrinsic_gain_denotes
  have e1 : (((c : ℚ)) : ℝ) = (c : ℝ) := by norm_num
  have e2 : (((65535 : ℚ)) : ℝ) = 65535 := by norm_num
  have e3 : ((((1 <<< s : ℕ) : ℚ)) : ℝ) = (2 : ℝ) ^ s := by
    rw [Nat.one_shiftLeft]
    norm_num
  rw [e1, e2, e3] at h
  exact h

/-! ## `recover` -/

theorem recover_loops_eq (T : Target) (d : VCC_20) (bus : Bus) :
    recover T d bus
      = status_pairs.foldlM
          (fun bus p => configure T d { channel := p.2, pol := p.1 } bus) bus := by
  have e2 : List.range 2 = [0, 1] := by decide
  have e10 : List.range 10 = [0, 1, 2, 3, 4, 5, 6, 7, 8, 9] := by decide
  simp only [recover, status_pairs, e2, e10, List.flatMap_cons, List.flatMap_nil, List.map_cons,
    List.map_nil, List.foldlM_cons, List.foldlM_nil, List.cons_append, List.nil_append,
    List.append_nil, bind_assoc, pure_bind, bind_pure]

theorem default_config_typed (channel pol : ℕ) (hc : channel < 2 ^ 16) (hp : pol < 2 ^ 8) :
    Config.typed { channel := channel, pol := pol } := by
  refine ⟨?_, hp, hc, ?_⟩
  · show 3963619800 < 2 ^ 32
    decide
  · show 18 < 2 ^ 32
    decide

theorem default_frame_count (channel pol : ℕ) :
    ({ channel := channel, pol := pol } : Config).sample_rate
      / ({ channel := channel, pol := pol } : Config).input_frame_size = 220201100 := by
  show 3963619800 / 18 = 220201100
  decide

theorem recover_fold (T : Target) (d : VCC_20) (ps : List (ℕ × ℕ)) :
    ∀ (bus : Bus), (∀ p ∈ ps, p.2 < 2 ^ 16 ∧ p.1 < 2 ^ 8) →
    ps.foldlM (fun bus p => configure T d { channel := p.2, pol := p.1 } bus) bus = some
      { mem := ps.foldl (configure_stores T d 220201100 (pack (shift T 1) (scale T 1))) bus.mem
        log := bus.log ++ ps.flatMap (fun p =>
          [Access.write (frame_count_addr T d) 220201100,
           Access.write (fs_sft_scl_addr T d p.2 p.1) (pack (shift T 1) (scale T 1))]) } := by
  induction ps with
  | nil => intro bus _; simp
  | cons p ps ih =>
    intro bus h
    have hp := h p (List.mem_cons_self _ _)
    have ht := default_config_typed p.2 p.1 hp.1 hp.2
    have h18 : ({ channel := p.2, pol := p.1 } : Config).input_frame_size ≠ 0 := by
      show 18 ≠ 0
      decide
    obtain ⟨bus1, h1, hm, hl⟩ :=
      configure_mem T d { channel := p.2, pol := p.1 } bus h18 ht
    rw [default_frame_count] at hm hl
    rw [List.foldlM_cons, h1]
    simp only [Option.some_bind, Option.bind_eq_bind]
    rw [ih bus1 (fun q hq => h q (List.mem_cons_of_mem _ hq)), hm, hl]
    simp only [configure_stores, List.foldl_cons, List.flatMap_cons, List.append_assoc]

theorem configure_stores_other (T : Target) (d : VCC_20) (v w : ℕ) (ps : List (ℕ × ℕ))
    (a : ℕ) (h1 : a ≠ frame_count_addr T d) (h2 : ∀ p ∈ ps, a ≠ fs_sft_scl_addr T d p.2 p.1) :
    ∀ m : ℕ → ℕ, ps.foldl (configure_stores T d v w) m a = m a := by
  induction ps with
  | nil => intro m; rfl
  | cons p ps ih =>
    intro m
    rw [List.foldl_cons, ih (fun q hq => h2 q (List.mem_cons_of_mem _ hq))]
    unfold configure_stores
    rw [Function.update_noteq (h2 p (List.mem_cons_self _ _)), Function.update_noteq h1]

theorem configure_stores_fs (T : Target) (d : VCC_20) (v w : ℕ) (ps : List (ℕ × ℕ))
    (a : ℕ) (h1 : a ≠ frame_count_addr T d) :
    ∀ m : ℕ → ℕ, (m a = w ∨ ∃ p ∈ ps, a = fs_sft_scl_addr T d p.2 p.1) →
      ps.foldl (configure_stores T d v w) m a = w := by
  induction ps with
  | nil =>
    intro m h
    rcases h with h | ⟨p, hp, _⟩
    · exact h
    · simp at hp
  | cons p ps ih =>
    intro m h
    rw [List.foldl_cons]
    apply ih
    by_cases hap : a = fs_sft_scl_addr T d p.2 p.1
    · left
      unfold configure_stores
      rw [hap, Function.update_same]
    · rcases h with h | ⟨q, hq, hqa⟩
      · left
        unfold configure_stores
        rw [Function.update_noteq hap, Function.update_noteq h1, h]
      · rcases List.mem_cons.1 hq with rfl | hq'
        · exact absurd hqa hap
        · exact Or.inr ⟨q, hq', hqa⟩

theorem configure_stores_frame_count (T : Target) (d : VCC_20) (v w : ℕ) (ps : List (ℕ × ℕ))
    (h2 : ∀ p ∈ ps, fs_sft_scl_addr T d p.2 p.1 ≠ frame_count_addr T d) :
    ∀ m : ℕ → ℕ, (m (frame_count_addr T d) = v ∨ ps ≠ []) →
      ps.foldl (configure_stores T d v w) m (frame_count_addr T d) = v := by
  induction ps with
  | nil =>
    intro m h
    rcases h with h | h
    · exact h
    · exact absurd rfl h
  | cons p ps ih =>
    intro m _
    rw [List.foldl_cons]
    apply ih (fun q hq => h2 q (List.mem_cons_of_mem _ hq))
    left
    unfold configure_stores
    rw [Function.update_noteq (Ne.symm (h2 p (List.mem_cons_self _ _))), Function.update_same]

theorem status_pairs_mem (channel pol : ℕ) (hc : channel < 10) (hp : pol < 2) :
    (pol, channel) ∈ status_pairs := by
  simp only [status_pairs, List.mem_flatMap, List.mem_range, List.mem_map]
  exact ⟨pol, hp, channel, hc, rfl⟩

theorem status_pairs_bounds (p : ℕ × ℕ) (h : p ∈ status_pairs) : p.2 < 10 ∧ p.1 < 2 := by
  simp only [status_pairs, List.mem_flatMap, List.mem_range, List.mem_map] at h
  obtain ⟨a, ha, b, hb, rfl⟩ := h
  exact ⟨hb, ha⟩

theorem fs_sft_scl_addr_ne_frame_count_of_lt (T : Target) (d : VCC_20) (channel pol : ℕ)
    (hc : channel < 2 ^ 16) (hp : pol < 2 ^ 8) :
    fs_sft_scl_addr T d channel pol ≠ frame_count_addr T d :=
  fs_sft_scl_addr_ne_frame_count T d { channel := channel, pol := pol }
    (default_config_typed channel pol hc hp)

/-- The register file and the log after `recover`. -/
theorem recover_spec (T : Target) (d : VCC_20) (bus : Bus) :
    ∃ bus', recover T d bus = some bus' ∧
      bus'.mem (frame_count_addr T d) = 220201100 ∧
      (∀ channel pol, channel < 10 → pol < 2 →
        bus'.mem (fs_sft_scl_addr T d channel pol) = pack (shift T 1) (scale T 1)) ∧
      (∀ a, a ≠ frame_count_addr T d →
        (∀ channel pol, channel < 10 → pol < 2 → a ≠ fs_sft_scl_addr T d channel pol) →
        bus'.mem a = bus.mem a) ∧
      bus'.log = bus.log ++ status_pairs.flatMap (fun p =>
        [Access.write (frame_count_addr T d) 220201100,
         Access.write (fs_sft_scl_addr T d p.2 p.1) (pack (shift T 1) (scale T 1))]) := by
  have hb : ∀ p ∈ status_pairs, p.2 < 2 ^ 16 ∧ p.1 < 2 ^ 8 := fun p hp => by
    have := status_pairs_bounds p hp
    omega
  have hne : ∀ p ∈ status_pairs, fs_sft_scl_addr T d p.2 p.1 ≠ frame_count_addr T d :=
    fun p hp => fs_sft_scl_addr_ne_frame_count_of_lt T d p.2 p.1 (hb p hp).1 (hb p hp).2
  refine ⟨_, (recover_loops_eq T d bus).trans (recover_fold T d status_pairs bus hb),
    ?_, ?_, ?_, rfl⟩
  · apply configure_stores_frame_count T d _ _ _ hne
    right
    rw [status_pairs_eq]
    exact List.cons_ne_nil _ _
  · intro channel pol hc hp
    apply configure_stores_fs T d _ _ _ _
      (fs_sft_scl_addr_ne_frame_count_of_lt T d channel pol (by omega) (by omega))
    right
    exact ⟨(pol, channel), status_pairs_mem channel pol hc hp, rfl⟩
  · intro a h1 h2
    apply configure_stores_other T d _ _ _ a h1
    intro p hp
    have := status_pairs_bounds p hp
    exact h2 p.2 p.1 this.1 this.2

theorem int_gain_one (T : Target) : int_gain T 1 = 3 := by
  have h : ceil_log2 (comb_gain 1) = .int ((3 : ℕ) : ℤ) := by
    rw [comb_gain_eq]
    unfold ceil_log2
    rw [if_pos (by norm_num)]
    congr 1
    apply clog_eq_of_bounds (by norm_num) <;> norm_num [Num.sq]
  unfold int_gain
  rw [h, fptoui_int_of_fits T 32 3 (by norm_num)]
  decide

theorem shift_one (T : Target) : shift T 1 = 1 := by
  have h : log2_trunc 3 = .int ((1 : ℕ) : ℤ) := by
    unfold log2_trunc
    rw [if_neg (by norm_num)]
    congr 2
    rw [Nat.log_eq_iff (by norm_num)]
    norm_num
  unfold shift
  rw [int_gain_one, h, fptoui_int_of_fits T 16 1 (by norm_num)]

/-- The gain decoded from the word `configure` writes for gain 1.0 is below 0.995. -/
theorem decode_unity_word_lt (T : Target) :
    decode_word (pack (shift T 1) (scale T 1)) < Num.ofRat 0.995 := by
  rw [shift_one, decode_word_pack 1 _ (by norm_num) (scale_lt T 1)]
  exact decode_gain_lt 1 _ (scale_lt T 1) _ (by norm_num) (by norm_num)

/-- C6, as the code runs: after `recover`, on every target and from any register
contents, `status` reports in each of the 20 entries `gains[0..19]` the gain decoded
from the word written for gain 1.0, and that gain is less than 0.995 (it is at most
`2 * intrinsic_gain < 0.48`), so no entry is within 0.5% of 1.0. -/
theorem recover_then_status_gains (T : Target) (d : VCC_20) (bus : Bus) (clear : Bool)
    (out : Status) (hg : 20 ≤ out.gains.length) :
    int_gain T 1 = 3 ∧ shift T 1 = 1 ∧
    ∃ bus1 out2 bus2, recover T d bus = some bus1 ∧
      status T d clear out bus1 = some (out2, bus2) ∧
      ∀ i, i < 20 → ∃ g, out2.gains[i]? = some g ∧ g < Num.ofRat 0.995 := by
  refine ⟨int_gain_one T, shift_one T, ?_⟩
  obtain ⟨bus1, h1, _, hfs, _, _⟩ := recover_spec T d bus
  refine ⟨bus1, _, _, h1, status_eq T d clear out bus1 hg, ?_⟩
  intro i hi
  refine ⟨_, ?_, decode_unity_word_lt T⟩
  dsimp only
  have hi' : i = i % 10 + i / 10 * 10 := by omega
  rw [hi', status_gains_get T d bus1.mem out.gains hg (i % 10) (i / 10) (by omega) (by omega),
    hfs (i % 10) (i / 10) (by omega) (by omega), pack_mod]

theorem recover_then_status_gains_witness :
    20 ≤ blank_status.gains.length ∧
    ∃ bus1 out2 bus2, recover wrap64 low_device zero_bus = some bus1 ∧
      status wrap64 low_device false blank_status bus1 = some (out2, bus2) ∧
      ∀ i, i < 20 → ∃ g, out2.gains[i]? = some g ∧ g < Num.ofRat 0.995 :=
  ⟨by decide,
    (recover_then_status_gains wrap64 low_device zero_bus false blank_status (by decide)).2.2⟩

/-! ## Frame of `configure`, `deconfigure`; decoding in `status` -/

/-- Distinct valid (channel, pol) pairs select distinct shift/scale registers. -/
theorem fs_sft_scl_addr_inj (T : Target) (d : VCC_20) (c1 p1 c2 p2 : ℕ)
    (h1 : c1 < 10) (h2 : p1 < 2) (h3 : c2 < 10) (h4 : p2 < 2)
    (h : fs_sft_scl_addr T d c1 p1 = fs_sft_scl_addr T d c2 p2) : c1 = c2 ∧ p1 = p2 := by
  rw [fs_sft_scl_addr_eq T d { channel := c1, pol := p1 }
      (default_config_typed c1 p1 (by omega) (by omega)),
    fs_sft_scl_addr_eq T d { channel := c2, pol := p2 }
      (default_config_typed c2 p2 (by omega) (by omega))] at h
  dsimp only at h
  have hi : c1 + p1 * 10 < 20 := by omega
  have hj : c2 + p2 * 10 < 20 := by omega
  have hij : c1 + p1 * 10 = c2 + p2 * 10 := by
    generalize c1 + p1 * 10 = i at h hi
    generalize c2 + p2 * 10 = j at h hj
    rcases ptr_bits_cases T with hp | hp <;> rw [hp] at h <;> omega
  omega

/-- What one `configure` call leaves alone. -/
theorem configure_frame (T : Target) (d : VCC_20) (c : Config) (bus : Bus) (clear : Bool)
    (out : Status) (hv : c.valid) (hg : 20 ≤ out.gains.length) :
    ∃ bus', configure T d c bus = some bus' ∧
      (∃ v w, bus'.log = bus.log ++
        [Access.write ((d.base_address + 0x0) % 2 ^ T.ptr_bits) v,
         Access.write ((d.base_address + 0x4 + (c.channel + c.pol * 10) * 4) % 2 ^ T.ptr_bits) w]) ∧
      (∀ a, a ≠ (d.base_address + 0x0) % 2 ^ T.ptr_bits →
        a ≠ (d.base_address + 0x4 + (c.channel + c.pol * 10) * 4) % 2 ^ T.ptr_bits →
        bus'.mem a = bus.mem a) ∧
      (∀ channel pol, channel < 10 → pol < 2 → (channel, pol) ≠ (c.channel, c.pol) →
        bus'.mem ((d.base_address + 0x4 + (channel + pol * 10) * 4) % 2 ^ T.ptr_bits)
          = bus.mem ((d.base_address + 0x4 + (channel + pol * 10) * 4) % 2 ^ T.ptr_bits)) ∧
      ∃ before b1 after b2, status T d clear out bus = some (before, b1) ∧
        status T d clear out bus' = some (after, b2) ∧
        ∀ channel pol, channel < 10 → pol < 2 → (channel, pol) ≠ (c.channel, c.pol) →
          after.gains[channel + pol * 10]? = before.gains[channel + pol * 10]? := by
  obtain ⟨ht, h0, hc, hp⟩ := hv
  unfold channels_out at hc
  obtain ⟨bus', hb, _, _, hfr, hl⟩ := configure_mem_at T d c bus h0 ht
  have hkeep : ∀ channel pol, channel < 10 → pol < 2 → (channel, pol) ≠ (c.channel, c.pol) →
      bus'.mem (fs_sft_scl_addr T d channel pol) = bus.mem (fs_sft_scl_addr T d channel pol) := by
    intro channel pol h1 h2 hne
    apply hfr
    · exact fs_sft_scl_addr_ne_frame_count_of_lt T d channel pol (by omega) (by omega)
    · intro heq
      obtain ⟨e1, e2⟩ := fs_sft_scl_addr_inj T d channel pol c.channel c.pol h1 h2 hc hp heq
      exact hne (by rw [e1, e2])
  have haddr : ∀ channel pol, channel < 10 → pol < 2 →
      fs_sft_scl_addr T d channel pol
        = (d.base_address + 0x4 + (channel + pol * 10) * 4) % 2 ^ T.ptr_bits := by
    intro channel pol h1 h2
    exact fs_sft_scl_addr_eq T d { channel := channel, pol := pol }
      (default_config_typed channel pol (by omega) (by omega))
  refine ⟨bus', hb, ⟨c.sample_rate / c.input_frame_size,
    pack (shift T c.gain) (scale T c.gain), ?_⟩, ?_, ?_, ?_⟩
  · rw [hl, haddr c.channel c.pol hc hp]
    rfl
  · intro a h1 h2
    apply hfr a h1
    rw [haddr c.channel c.pol hc hp]
    exact h2
  · intro channel pol h1 h2 hne
    rw [← haddr channel pol h1 h2]
    exact hkeep channel pol h1 h2 hne
  · refine ⟨_, _, _, _, status_eq T d clear out bus hg, status_eq T d clear out bus' hg, ?_⟩
    intro channel pol h1 h2 hne
    dsimp only
    rw [status_gains_get T d bus'.mem out.gains hg channel pol h1 h2,
      status_gains_get T d bus.mem out.gains hg channel pol h1 h2,
      hkeep channel pol h1 h2 hne]

/-- C7: for every valid config, `configure` and `deconfigure` each return after
exactly two stores, one to the frame-count register at `base + 0x0` and one to the
shift/scale register of that (channel, pol); every other address keeps its word, in
particular each of the other 19 shift/scale registers, so the gain `status` decodes
for every other (channel, pol) is the same before and after. -/
theorem configure_no_cross_talk (T : Target) (d : VCC_20) (c : Config) (bus : Bus)
    (clear : Bool) (out : Status) (hv : c.valid) (hg : 20 ≤ out.gains.length)
    (op : Target → VCC_20 → Config → Bus → Option Bus)
    (hop : op = configure ∨ op = deconfigure) :
    ∃ bus', op T d c bus = some bus' ∧
      (∃ v w, bus'.log = bus.log ++
        [Access.write ((d.base_address + 0x0) % 2 ^ T.ptr_bits) v,
         Access.write ((d.base_address + 0x4 + (c.channel + c.pol * 10) * 4) % 2 ^ T.ptr_bits) w]) ∧
      (∀ a, a ≠ (d.base_address + 0x0) % 2 ^ T.ptr_bits →
        a ≠ (d.base_address + 0x4 + (c.channel + c.pol * 10) * 4) % 2 ^ T.ptr_bits →
        bus'.mem a = bus.mem a) ∧
      (∀ channel pol, channel < 10 → pol < 2 → (channel, pol) ≠ (c.channel, c.pol) →
        bus'.mem ((d.base_address + 0x4 + (channel + pol * 10) * 4) % 2 ^ T.ptr_bits)
          = bus.mem ((d.base_address + 0x4 + (channel + pol * 10) * 4) % 2 ^ T.ptr_bits)) ∧
      ∃ before b1 after b2, status T d clear out bus = some (before, b1) ∧
        status T d clear out bus' = some (after, b2) ∧
        ∀ channel pol, channel < 10 → pol < 2 → (channel, pol) ≠ (c.channel, c.pol) →
          after.gains[channel + pol * 10]? = before.gains[channel + pol * 10]? := by
  rcases hop with rfl | rfl
  · exact configure_frame T d c bus clear out hv hg
  · exact configure_frame T d { c with gain := 1 } bus clear out hv hg

theorem configure_no_cross_talk_witness :
    example_config.valid ∧ 20 ≤ blank_status.gains.length ∧
    ∃ bus', deconfigure wrap64 low_device example_config zero_bus = some bus' ∧
      ∀ a, a ≠ 0x1000 → a ≠ 0x1010 → bus'.mem a = 0 := by
  have hv : example_config.valid := by decide
  obtain ⟨bus', h1, _, h3, _⟩ := configure_no_cross_talk wrap64 low_device example_config
    zero_bus false blank_status hv (by decide) deconfigure (Or.inr rfl)
  exact ⟨hv, by decide, bus', h1, fun a ha hb => h3 a ha hb⟩

/-- C8: for every config and every register state, `deconfigure(c)` is `configure`
of `c` with `gain := 1.0` (same result, same stores to the same addresses in the
same order, both undefined when `input_frame_size = 0`); so it does not depend on
`c.gain`; and for a well-typed `c` with non-zero `input_frame_size` its two stores
are the frame count and the word of gain 1.0. -/
theorem deconfigure_is_configure_unity (T : Target) (d : VCC_20) (c : Config) (bus : Bus) :
    deconfigure T d c bus = configure T d { c with gain := 1 } bus ∧
    (∀ g : ℚ, deconfigure T d { c with gain := g } bus = deconfigure T d c bus) ∧
    (c.typed → c.input_frame_size ≠ 0 →
      ∃ bus', deconfigure T d c bus = some bus' ∧
        bus'.log = bus.log ++
          [Access.write (frame_count_addr T d) (c.sample_rate / c.input_frame_size),
           Access.write (fs_sft_scl_addr T d c.channel c.pol)
             (pack (shift T 1) (scale T 1))]) := by
  refine ⟨rfl, fun _ => rfl, ?_⟩
  intro ht h0
  obtain ⟨bus', h1, _, hl⟩ := configure_mem T d { c with gain := 1 } bus h0 ht
  exact ⟨bus', h1, hl⟩

theorem deconfigure_is_configure_unity_witness :
    example_config.typed ∧ example_config.input_frame_size ≠ 0 ∧
    ∃ bus', deconfigure wrap64 low_device example_config zero_bus = some bus' ∧
      bus'.log = zero_bus.log ++
        [Access.write (frame_count_addr wrap64 low_device)
           (example_config.sample_rate / example_config.input_frame_size),
         Access.write (fs_sft_scl_addr wrap64 low_device example_config.channel example_config.pol)
           (pack (shift wrap64 1) (scale wrap64 1))] :=
  ⟨by decide, by decide,
    (deconfigure_is_configure_unity wrap64 low_device example_config zero_bus).2.2
      (by decide) (by decide)⟩

/-- C10: decoding is total: every register word `w` decodes to a number (finite by
construction) with `0 ≤ gain ≤ 2^15 * intrinsic_gain`, and the gain depends only on
bits [0,20) of `w`. -/
theorem decode_total (w : ℕ) :
    (∃ q : ℚ, decode_word w = Num.ofRat q * Num.sqrt20) ∧
    Num.ofRat 0 ≤ decode_word w ∧
    decode_word w ≤ Num.ofRat (2 ^ 15) * intrinsic_gain ∧
    (∀ w', w' % 2 ^ 20 = w % 2 ^ 20 → decode_word w' = decode_word w) := by
  have hs : unpack_shift w ≤ 15 := by rw [unpack_shift_eq]; omega
  have hc : unpack_scale w ≤ 65535 := by rw [unpack_scale_eq]; omega
  have hc1 : ((unpack_scale w : ℕ) : ℚ) / 65535 ≤ 1 := by
    rw [div_le_one (by norm_num)]
    exact_mod_cast hc
  have hc0 : (0 : ℚ) ≤ ((unpack_scale w : ℕ) : ℚ) / 65535 := by positivity
  have hp : (2 : ℚ) ^ unpack_shift w ≤ 2 ^ 15 := pow_le_pow_right₀ (by norm_num) hs
  have hq0 : (0 : ℚ) ≤ ((unpack_scale w : ℕ) : ℚ) / 65535 * 2 ^ unpack_shift w * (20 / 379) := by
    positivity
  have hq1 : ((unpack_scale w : ℕ) : ℚ) / 65535 * 2 ^ unpack_shift w * (20 / 379)
      ≤ 2 ^ 15 * (20 / 379) := by
    calc ((unpack_scale w : ℕ) : ℚ) / 65535 * 2 ^ unpack_shift w * (20 / 379)
        ≤ 1 * 2 ^ 15 * (20 / 379) := by gcongr
      _ = 2 ^ 15 * (20 / 379) := by ring
  refine ⟨⟨((unpack_scale w : ℕ) : ℚ) / 65535 * 2 ^ unpack_shift w * (20 / 379), ?_⟩, ?_, ?_, ?_⟩
  · rw [decode_word, decode_gain_eq]
    simp only [Num.mul_def, Num.ofRat, Num.sqrt20]
    norm_num
  · rw [decode_word, decode_gain_eq, Num.le_def]
    simp only [Num.ofRat, le_refl, if_true]
    exact Or.inl hq0
  · rw [decode_word, decode_gain_eq, intrinsic_gain_eq, Num.le_def]
    simp only [Num.mul_def, Num.ofRat, Num.sq]
    split
    · left; norm_num
    · refine ⟨by norm_num, ?_⟩
      have h2 := pow_le_pow_left₀ hq0 hq1 2
      norm_num at h2 ⊢
      linarith
  · intro w' h
    unfold decode_word
    rw [unpack_shift_eq, unpack_scale_eq, unpack_shift_eq, unpack_scale_eq]
    congr 1 <;> omega

theorem decode_total_witness :
    (0x512345 : ℕ) % 2 ^ 20 = 0x12345 % 2 ^ 20 ∧ decode_word 0x512345 = decode_word 0x12345 :=
  ⟨by decide, (decode_total 0x12345).2.2.2 0x512345 (by decide)⟩

/-! ## `status`: read-only, dimensions -/

/-- C12: for every register state (and an output vector with its 20 elements),
`status` returns one and the same result for `clear = true` and `clear = false`
(same sample rate, same gains), every register holds afterwards the word it held
before, and the 21 bus accesses it makes are all reads. -/
theorem status_read_only (T : Target) (d : VCC_20) (out : Status) (bus : Bus)
    (hg : 20 ≤ out.gains.length) :
    ∃ out' bus', (∀ clear, status T d clear out bus = some (out', bus')) ∧
      bus'.mem = bus.mem ∧
      ∃ reads, bus'.log = bus.log ++ reads ∧ reads.length = 21 ∧
        ∀ a ∈ reads, ∃ addr, a = Access.read addr := by
  refine ⟨_, _, fun clear => status_eq T d clear out bus hg, rfl,
    status_reads T d ++ [Access.read (status_frame_count_addr T d % 2 ^ T.ptr_bits)],
    ?_, ?_, ?_⟩
  · dsimp only
    rw [List.append_assoc]
  · simp [status_reads, status_pairs_eq]
  · intro a ha
    rcases List.mem_append.1 ha with h | h
    · simp only [status_reads, List.mem_map] at h
      obtain ⟨p, _, rfl⟩ := h
      exact ⟨_, rfl⟩
    · rw [List.mem_singleton] at h
      exact ⟨_, h⟩

theorem status_read_only_witness :
    20 ≤ blank_status.gains.length ∧
    ∃ out' bus', (∀ clear, status wrap64 low_device clear blank_status zero_bus
        = some (out', bus')) ∧ bus'.mem = zero_bus.mem := by
  obtain ⟨out', bus', h1, h2, _⟩ :=
    status_read_only wrap64 low_device blank_status zero_bus (by decide)
  exact ⟨by decide, out', bus', h1, h2⟩

/-- C13 fails on the code: `status` on a `Status` holding 0 channels, 0 polarisations
and 20 gains returns it with 0 channels and 0 polarisations, not 10 and 2; and on a
`Status` with an empty `gains` vector it has no defined result (the first
`gains[0] = ...` is out of bounds). -/
theorem status_dimensions_counterexample :
    (∃ out' bus', status wrap64 low_device false blank_status zero_bus = some (out', bus') ∧
      out'.num_channels = 0 ∧ out'.num_polarisations = 0) ∧
    status wrap64 low_device false ⟨0, 10, 2, []⟩ zero_bus = none := by
  constructor
  · exact ⟨_, _, status_eq wrap64 low_device false blank_status zero_bus (by decide), rfl, rfl⟩
  · rw [status, status_loops_eq, status_pairs_eq]
    rfl

/-- C13 as amended: `status` writes neither `num_channels` nor `num_polarisations`
and does not resize `gains`: given a `Status` whose vector has at least 20 elements
it returns one with the same two dimension members and a vector of the same length,
so a `Status` passed in with 10, 2 and 20 entries comes back with 10, 2 and 20
entries. -/
theorem status_keeps_dimensions (T : Target) (d : VCC_20) (clear : Bool) (out : Status)
    (bus : Bus) (hg : 20 ≤ out.gains.length) :
    ∃ out' bus', status T d clear out bus = some (out', bus') ∧
      out'.num_channels = out.num_channels ∧
      out'.num_polarisations = out.num_polarisations ∧
      out'.gains.length = out.gains.length ∧
      (out.num_channels = 10 → out.num_polarisations = 2 → out.gains.length = 20 →
        out'.num_channels = 10 ∧ out'.num_polarisations = 2 ∧
        (out'.gains.length : ℤ) = out'.num_channels * out'.num_polarisations) := by
  refine ⟨_, _, status_eq T d clear out bus hg, rfl, rfl, ?_, ?_⟩
  · dsimp only
    rw [status_gains_length]
  · intro h1 h2 h3
    dsimp only
    rw [status_gains_length, h1, h2, h3]
    exact ⟨rfl, rfl, rfl⟩

theorem status_keeps_dimensions_witness :
    20 ≤ (⟨0, 10, 2, List.replicate 20 (Num.ofRat 0)⟩ : Status).gains.length ∧
    ∃ out' bus', status wrap64 low_device false ⟨0, 10, 2, List.replicate 20 (Num.ofRat 0)⟩
        zero_bus = some (out', bus') ∧
      out'.num_channels = 10 ∧ out'.num_polarisations = 2 ∧ out'.gains.length = 20 := by
  obtain ⟨out', bus', h1, h2, h3, h4, _⟩ := status_keeps_dimensions wrap64 low_device false
    ⟨0, 10, 2, List.replicate 20 (Num.ofRat 0)⟩ zero_bus (by decide)
  exact ⟨by decide, out', bus', h1, h2, h3, by rw [h4]; rfl⟩

/-! ## Idempotence; `recover` as a sequence of `configure` -/

theorem configure_twice (T : Target) (d : VCC_20) (c : Config) (hv : c.valid) (bus : Bus) :
    ∃ bus1 bus2, configure T d c bus = some bus1 ∧
      bus1.log = bus.log ++
        [Access.write (frame_count_addr T d) (c.sample_rate / c.input_frame_size),
         Access.write (fs_sft_scl_addr T d c.channel c.pol)
           (pack (shift T c.gain) (scale T c.gain))] ∧
      configure T d c bus1 = some bus2 ∧ bus2.mem = bus1.mem ∧
      bus2.log = bus1.log ++
        [Access.write (frame_count_addr T d) (c.sample_rate / c.input_frame_size),
         Access.write (fs_sft_scl_addr T d c.channel c.pol)
           (pack (shift T c.gain) (scale T c.gain))] := by
  obtain ⟨ht, h0, _, _⟩ := hv
  obtain ⟨bus1, hb1, hm1, hl1⟩ := configure_mem T d c bus h0 ht
  obtain ⟨bus2, hb2, hm2, hl2⟩ := configure_mem T d c bus1 h0 ht
  refine ⟨bus1, bus2, hb1, hl1, hb2, ?_, hl2⟩
  rw [hm2, hm1]
  funext a
  by_cases h1 : a = fs_sft_scl_addr T d c.channel c.pol
  · rw [h1, Function.update_same, Function.update_same]
  · rw [Function.update_noteq h1, Function.update_noteq h1]
    by_cases h2 : a = frame_count_addr T d
    · rw [h2, Function.update_same, Function.update_same]
    · rw [Function.update_noteq h2, Function.update_noteq h1, Function.update_noteq h2]

theorem recover_twice (T : Target) (d : VCC_20) (bus : Bus) :
    ∃ bus1 bus2, recover T d bus = some bus1 ∧
      bus1.log = bus.log ++ status_pairs.flatMap (fun p =>
        [Access.write (frame_count_addr T d) 220201100,
         Access.write (fs_sft_scl_addr T d p.2 p.1) (pack (shift T 1) (scale T 1))]) ∧
      recover T d bus1 = some bus2 ∧ bus2.mem = bus1.mem ∧
      bus2.log = bus1.log ++ status_pairs.flatMap (fun p =>
        [Access.write (frame_count_addr T d) 220201100,
         Access.write (fs_sft_scl_addr T d p.2 p.1) (pack (shift T 1) (scale T 1))]) := by
  obtain ⟨bus1, hb1, hf1, hs1, _, hl1⟩ := recover_spec T d bus
  obtain ⟨bus2, hb2, hf2, hs2, ho2, hl2⟩ := recover_spec T d bus1
  refine ⟨bus1, bus2, hb1, hl1, hb2, ?_, hl2⟩
  funext a
  by_cases h1 : a = frame_count_addr T d
  · rw [h1, hf1, hf2]
  · by_cases h2 : ∃ channel pol, channel < 10 ∧ pol < 2 ∧ a = fs_sft_scl_addr T d channel pol
    · obtain ⟨channel, pol, hc, hp, rfl⟩ := h2
      rw [hs1 channel pol hc hp, hs2 channel pol hc hp]
    · apply ho2 a h1
      intro channel pol hc hp heq
      exact h2 ⟨channel, pol, hc, hp, heq⟩

/-- C14: for every valid config the stores of `configure(c)` (addresses, values,
order) are the same whatever the registers hold, and running it a second time
leaves every register as the first run left it; the same holds for `deconfigure(c)`
and, with its 40 stores, for `recover()`. -/
theorem operations_idempotent (T : Target) (d : VCC_20) (c : Config) (hv : c.valid) :
    (∀ op : Target → VCC_20 → Config → Bus → Option Bus, op = configure ∨ op = deconfigure →
      ∃ stores : List Access, (∀ a ∈ stores, ∃ addr v, a = Access.write addr v) ∧
        ∀ bus, ∃ bus1 bus2, op T d c bus = some bus1 ∧ bus1.log = bus.log ++ stores ∧
          op T d c bus1 = some bus2 ∧ bus2.mem = bus1.mem ∧ bus2.log = bus1.log ++ stores) ∧
    ∃ stores : List Access, stores.length = 40 ∧
      (∀ a ∈ stores, ∃ addr v, a = Access.write addr v) ∧
      ∀ bus, ∃ bus1 bus2, recover T d bus = some bus1 ∧ bus1.log = bus.log ++ stores ∧
        recover T d bus1 = some bus2 ∧ bus2.mem = bus1.mem ∧ bus2.log = bus1.log ++ stores := by
  constructor
  · rintro op (rfl | rfl)
    · refine ⟨_, ?_, fun bus => configure_twice T d c hv bus⟩
      intro a ha
      simp only [List.mem_cons, List.mem_singleton, List.not_mem_nil, or_false] at ha
      rcases ha with rfl | rfl <;> exact ⟨_, _, rfl⟩
    · refine ⟨_, ?_, fun bus => configure_twice T d { c with gain := 1 } hv bus⟩
      intro a ha
      simp only [List.mem_cons, List.mem_singleton, List.not_mem_nil, or_false] at ha
      rcases ha with rfl | rfl <;> exact ⟨_, _, rfl⟩
  · refine ⟨_, ?_, ?_, fun bus => recover_twice T d bus⟩
    · simp [status_pairs_eq]
    · intro a ha
      simp only [List.mem_flatMap, List.mem_cons, List.mem_singleton, List.not_mem_nil,
        or_false] at ha
      obtain ⟨p, _, rfl | rfl⟩ := ha <;> exact ⟨_, _, rfl⟩

theorem operations_idempotent_witness :
    example_config.valid ∧
    ∃ bus1 bus2, configure wrap64 low_device example_config zero_bus = some bus1 ∧
      configure wrap64 low_device example_config bus1 = some bus2 ∧ bus2.mem = bus1.mem := by
  have hv : example_config.valid := by decide
  obtain ⟨stores, _, h⟩ :=
    (operations_idempotent wrap64 low_device example_config hv).1 configure (Or.inl rfl)
  obtain ⟨bus1, bus2, h1, _, h3, h4, _⟩ := h zero_bus
  exact ⟨hv, bus1, bus2, h1, h3, h4⟩

theorem fs_sft_scl_addr_of_lt (T : Target) (d : VCC_20) (channel pol : ℕ)
    (hc : channel < 2 ^ 16) (hp : pol < 2 ^ 8) :
    fs_sft_scl_addr T d channel pol
      = (d.base_address + 0x4 + 4 * (channel + pol * 10)) % 2 ^ T.ptr_bits := by
  rw [fs_sft_scl_addr_eq T d { channel := channel, pol := pol }
    (default_config_typed channel pol hc hp)]
  dsimp only
  rw [Nat.mul_comm]

/-- What `recover` does, on every target and for every base address: it is the
20 `configure` calls on the default config in loop order, the frame-count register
then holds 220201100, the 20 shift/scale registers all hold the word of gain 1.0,
nothing outside `base + 0x0 .. base + 0x50` changes, and `status` reports the
default sample rate when the base address lies below `2 ^ 32`. -/
theorem recover_is_configure_sequence (T : Target) (d : VCC_20) (bus : Bus) :
    recover T d bus
      = [(0, 0), (0, 1), (0, 2), (0, 3), (0, 4), (0, 5), (0, 6), (0, 7), (0, 8), (0, 9),
         (1, 0), (1, 1), (1, 2), (1, 3), (1, 4), (1, 5), (1, 6), (1, 7), (1, 8), (1, 9)].foldlM
          (fun bus p => configure T d { channel := p.2, pol := p.1 } bus) bus ∧
    ∃ bus', recover T d bus = some bus' ∧
      bus'.mem ((d.base_address + 0x0) % 2 ^ T.ptr_bits) = 220201100 ∧
      (3963619800 / 18 = 220201100 ∧ 220201100 * 18 % 2 ^ 32 = 3963619800) ∧
      (∀ i, i < 20 → bus'.mem ((d.base_address + 0x4 + 4 * i) % 2 ^ T.ptr_bits)
        = pack (shift T 1) (scale T 1)) ∧
      (∀ bus0 bus1, configure T d { gain := 1 } bus0 = some bus1 →
        bus1.mem ((d.base_address + 0x4) % 2 ^ T.ptr_bits) = pack (shift T 1) (scale T 1)) ∧
      (∀ a, (∀ off, off ≤ 0x50 → a ≠ (d.base_address + off) % 2 ^ T.ptr_bits) →
        bus'.mem a = bus.mem a) ∧
      (d.base_address % 2 ^ T.ptr_bits < 2 ^ 32 → ∀ clear out, 20 ≤ out.gains.length →
        ∃ out2 bus2, status T d clear out bus' = some (out2, bus2) ∧
          out2.sample_rate = 3963619800) := by
  refine ⟨?_, ?_⟩
  · rw [recover_loops_eq, status_pairs_eq]
  obtain ⟨bus', hb, hfc, hfs, hoth, _⟩ := recover_spec T d bus
  refine ⟨bus', hb, hfc, ⟨by decide, by decide⟩, ?_, ?_, ?_, ?_⟩
  · intro i hi
    have h := hfs (i % 10) (i / 10) (by omega) (by omega)
    rw [fs_sft_scl_addr_of_lt T d (i % 10) (i / 10) (by omega) (by omega)] at h
    have e : i % 10 + i / 10 * 10 = i := by omega
    rw [e] at h
    exact h
  · intro bus0 bus1 h
    have ht : Config.typed { gain := 1 } := default_config_typed 0 0 (by norm_num) (by norm_num)
    have h18 : ({ gain := 1 } : Config).input_frame_size ≠ 0 := by
      show 18 ≠ 0
      decide
    obtain ⟨b, hb1, _, hw, _⟩ := configure_mem_at T d { gain := 1 } bus0 h18 ht
    rw [hb1] at h
    cases h
    have e := fs_sft_scl_addr_of_lt T d 0 0 (by norm_num) (by norm_num)
    rw [show (d.base_address + 0x4 + 4 * (0 + 0 * 10)) = d.base_address + 0x4 from rfl] at e
    rw [← e]
    exact hw
  · intro a ha
    apply hoth a
    · have := ha 0 (by norm_num)
      exact this
    · intro channel pol hc hp
      rw [fs_sft_scl_addr_of_lt T d channel pol (by omega) (by omega)]
      have := ha (0x4 + 4 * (channel + pol * 10)) (by omega)
      rw [← Nat.add_assoc] at this
      exact this
  · intro hlow clear out hg
    refine ⟨_, _, status_eq T d clear out bus' hg, ?_⟩
    have ha : status_frame_count_addr T d % 2 ^ T.ptr_bits = frame_count_addr T d := by
      unfold status_frame_count_addr frame_count_addr config_pps_frame_count_addr_offset
      rw [Nat.add_zero, Nat.mod_eq_of_lt hlow, Nat.mod_mod]
    dsimp only
    rw [ha, hfc]
    decide

/-- C15, at a base address of `2 ^ 32` on a 64-bit target: `recover` leaves 220201100
in the frame-count register at `0x100000000`, but `status` reads address `0x0` (the
address cut to 32 bits) and reports a sample rate of 0, not 3963619800. -/
theorem recover_then_status_high_base :
    ∃ bus1 out2 bus2, recover wrap64 high_device zero_bus = some bus1 ∧
      bus1.mem 0x100000000 = 220201100 ∧
      status wrap64 high_device false blank_status bus1 = some (out2, bus2) ∧
      out2.sample_rate = 0 := by
  obtain ⟨bus1, hb, hfc, _, hoth, _⟩ := recover_spec wrap64 high_device zero_bus
  have hg : 20 ≤ blank_status.gains.length := by decide
  have ha : status_frame_count_addr wrap64 high_device % 2 ^ wrap64.ptr_bits = 0 := by decide
  have h0 : bus1.mem 0 = 0 := by
    rw [hoth 0 (by decide)]
    · rfl
    · intro channel pol hc hp
      rw [fs_sft_scl_addr_of_lt wrap64 high_device channel pol (by omega) (by omega)]
      have hp64 : wrap64.ptr_bits = 64 := by decide
      have hbase : high_device.base_address = 4294967296 := rfl
      rw [hp64, hbase]
      omega
  refine ⟨bus1, _, _, hb, hfc, status_eq wrap64 high_device false blank_status bus1 hg, ?_⟩
  dsimp only
  rw [ha, h0]
  decide

/-- C16, as the code runs: `status` makes its last read at
`(base_address mod 2^ptr_bits) mod 2^32`, because line 115 holds the address in a
`uint32_t`, and reports `(frame_count * 18) mod 2^32` for the word found there.  On a
64-bit target with `2^32 ≤ base_address < 2^64` that address is not
`base_address + 0x0`, where `configure` stores the frame count; the two coincide
when the base address lies below `2^32`. -/
theorem status_frame_count_address (T : Target) (d : VCC_20) (clear : Bool) (out : Status)
    (bus : Bus) (hg : 20 ≤ out.gains.length) :
    ∃ out' bus', status T d clear out bus = some (out', bus') ∧
      bus'.log.getLast? = some (Access.read (d.base_address % 2 ^ T.ptr_bits % 2 ^ 32)) ∧
      out'.sample_rate
        = bus.mem (d.base_address % 2 ^ T.ptr_bits % 2 ^ 32) % 2 ^ 32 * 18 % 2 ^ 32 ∧
      (T.lp64 = true → 2 ^ 32 ≤ d.base_address → d.base_address < 2 ^ 64 →
        frame_count_addr T d = d.base_address + 0x0 ∧
        d.base_address % 2 ^ T.ptr_bits % 2 ^ 32 ≠ frame_count_addr T d) ∧
      (d.base_address % 2 ^ T.ptr_bits < 2 ^ 32 →
        d.base_address % 2 ^ T.ptr_bits % 2 ^ 32 = frame_count_addr T d) := by
  have ha : status_frame_count_addr T d % 2 ^ T.ptr_bits
      = d.base_address % 2 ^ T.ptr_bits % 2 ^ 32 := by
    unfold status_frame_count_addr config_pps_frame_count_addr_offset
    rw [Nat.add_zero]
    rcases ptr_bits_cases T with hp | hp <;> rw [hp] <;> omega
  refine ⟨_, _, status_eq T d clear out bus hg, ?_, ?_, ?_, ?_⟩
  · simp only [ha, List.getLast?_append, List.getLast?_singleton, Option.or_some]
  · dsimp only
    rw [ha]
  · intro h64 hlo hhi
    have hp : T.ptr_bits = 64 := by
      unfold Target.ptr_bits
      rw [h64]
      rfl
    unfold frame_count_addr config_pps_frame_count_addr_offset
    rw [hp]
    omega
  · intro hlow
    unfold frame_count_addr config_pps_frame_count_addr_offset
    rw [Nat.add_zero, Nat.mod_eq_of_lt hlow]

theorem status_frame_count_address_witness :
    20 ≤ blank_status.gains.length ∧ wrap64.lp64 = true ∧
    2 ^ 32 ≤ high_device.base_address ∧ high_device.base_address < 2 ^ 64 ∧
    ∃ out' bus', status wrap64 high_device false blank_status zero_bus = some (out', bus') ∧
      bus'.log.getLast? = some (Access.read 0x0) ∧
      frame_count_addr wrap64 high_device = 0x100000000 := by
  obtain ⟨out', bus', h1, h2, _, h4, _⟩ :=
    status_frame_count_address wrap64 high_device false blank_status zero_bus (by decide)
  exact ⟨by decide, rfl, by decide, by decide, out', bus', h1, h2,
    (h4 rfl (by decide) (by decide)).1⟩

/-- C20: for channel in [0,10) and pol in {0,1} the index `channel + pol*10` lies in
[0,20); two distinct valid pairs have distinct indices and distinct register
addresses; the address is `base + 0x4 + 4*index` (a `uintptr_t` sum), it lies in
`[base + 0x4, base + 0x50]` when that range fits the pointer width, and it is never
the frame-count address `base + 0x0`.  Without the precondition the map is not
injective: (channel 10, pol 0) and (channel 0, pol 1) give the same index and the
same register. -/
theorem addressing_injective (T : Target) (d : VCC_20) (c1 p1 c2 p2 : ℕ)
    (h1 : c1 < 10) (h2 : p1 < 2) (h3 : c2 < 10) (h4 : p2 < 2) :
    index c1 p1 = c1 + p1 * 10 ∧ index c1 p1 < 20 ∧
    ((c1, p1) ≠ (c2, p2) → index c1 p1 ≠ index c2 p2 ∧
      fs_sft_scl_addr T d c1 p1 ≠ fs_sft_scl_addr T d c2 p2) ∧
    fs_sft_scl_addr T d c1 p1 = (d.base_address + 0x4 + 4 * index c1 p1) % 2 ^ T.ptr_bits ∧
    (d.base_address + 0x50 < 2 ^ T.ptr_bits →
      d.base_address + 0x4 ≤ fs_sft_scl_addr T d c1 p1 ∧
      fs_sft_scl_addr T d c1 p1 ≤ d.base_address + 0x50) ∧
    fs_sft_scl_addr T d c1 p1 ≠ (d.base_address + 0x0) % 2 ^ T.ptr_bits ∧
    (index 10 0 = index 0 1 ∧ ((10 : ℕ), (0 : ℕ)) ≠ (0, 1) ∧
      fs_sft_scl_addr T d 10 0 = fs_sft_scl_addr T d 0 1) := by
  have hi : ∀ c p, c < 10 → p < 2 → index c p = c + p * 10 := by
    intro c p hc hp
    unfold index channels_out
    omega
  have haddr := fs_sft_scl_addr_of_lt T d c1 p1 (by omega) (by omega)
  refine ⟨hi c1 p1 h1 h2, by rw [hi c1 p1 h1 h2]; omega, ?_, ?_, ?_, ?_, ?_⟩
  · intro hne
    have hidx : index c1 p1 ≠ index c2 p2 := by
      rw [hi c1 p1 h1 h2, hi c2 p2 h3 h4]
      intro heq
      apply hne
      have e1 : c1 = c2 := by omega
      have e2 : p1 = p2 := by omega
      rw [e1, e2]
    refine ⟨hidx, ?_⟩
    intro heq
    obtain ⟨e1, e2⟩ := fs_sft_scl_addr_inj T d c1 p1 c2 p2 h1 h2 h3 h4 heq
    exact hne (by rw [e1, e2])
  · rw [haddr, hi c1 p1 h1 h2]
  · intro hfit
    rw [haddr, Nat.mod_eq_of_lt (by omega)]
    omega
  · exact fs_sft_scl_addr_ne_frame_count_of_lt T d c1 p1 (by omega) (by omega)
  · refine ⟨by decide, by decide, ?_⟩
    rw [fs_sft_scl_addr_of_lt T d 10 0 (by norm_num) (by norm_num),
      fs_sft_scl_addr_of_lt T d 0 1 (by norm_num) (by norm_num)]

theorem addressing_injective_witness :
    (5 : ℕ) < 10 ∧ (1 : ℕ) < 2 ∧ (3 : ℕ) < 10 ∧ (0 : ℕ) < 2 ∧
    index 5 1 = 15 ∧ index 5 1 ≠ index 3 0 ∧
    fs_sft_scl_addr wrap64 low_device 5 1 ≠ fs_sft_scl_addr wrap64 low_device 3 0 := by
  obtain ⟨h1, _, h3, _⟩ := addressing_injective wrap64 low_device 5 1 3 0
    (by decide) (by decide) (by decide) (by decide)
  exact ⟨by decide, by decide, by decide, by decide, h1, (h3 (by decide)).1, (h3 (by decide)).2⟩

/-! ## Re-encoding a decoded gain -/

/-- The encoder of `configure` is the encoder on `comb_gain` values, at the
`comb_gain` of the rational gain. -/
theorem encoder_of_comb_gain (T : Target) (gain : ℚ) :
    comb_gain gain = comb_gain_of (Num.ofRat gain) ∧
    int_gain T gain = int_gain_of T (comb_gain gain) ∧
    shift T gain = shift_of T (comb_gain gain) ∧
    scale T gain = scale_of T (comb_gain gain) :=
  ⟨rfl, rfl, rfl, rfl⟩

theorem comb_gain_of_decode (s c : ℕ) :
    comb_gain_of (decode_gain s c) = Num.ofRat ((c : ℚ) / 65535 * 2 ^ s) := by
  rw [comb_gain_of, decode_gain_eq, intrinsic_gain_eq]
  simp only [Num.div_def, Num.mul_def, Num.inv, Num.ofRat]
  norm_num
  field_simp
  ring

theorem ceil_log2_two_pow (s : ℕ) : ceil_log2 (Num.ofRat ((2 : ℚ) ^ s)) = .int s := by
  unfold ceil_log2
  rw [if_pos (by simp only [Num.ofRat]; positivity)]
  congr 1
  have h : (Num.ofRat ((2 : ℚ) ^ s)).sq = ((4 : ℕ) : ℚ) ^ (s : ℤ) := by
    simp only [Num.sq, Num.ofRat]
    norm_num
    rw [← pow_mul, mul_comm, pow_mul]
    norm_num
  rw [h, Int.clog_zpow (by norm_num)]

theorem log_two_lt_self (s : ℕ) (h : 1 ≤ s) : Nat.log 2 s < s :=
  Nat.log_lt_self 2 (by omega)

/-- C11, at the top of every shift range: for every target and every shift `s` in
[1,15], the gain decoded from `(s, 65535)` has `comb_gain = 2^s` exactly, `configure`
takes `int_gain = ceil(log2(2^s)) = s` and re-encodes the shift as
`trunc(log2(s))`, which is less than `s`; for `(3, 65535)` the shift comes back as 1. -/
theorem reencode_shift_differs (T : Target) (s : ℕ) (h1 : 1 ≤ s) (h15 : s ≤ 15) :
    comb_gain_of (decode_gain s 65535) = Num.ofRat ((2 : ℚ) ^ s) ∧
    int_gain_of T (comb_gain_of (decode_gain s 65535)) = s ∧
    shift_of T (comb_gain_of (decode_gain s 65535)) = Nat.log 2 s ∧
    shift_of T (comb_gain_of (decode_gain s 65535)) < s ∧
    (s = 3 → shift_of T (comb_gain_of (decode_gain s 65535)) = 1) := by
  have hc : comb_gain_of (decode_gain s 65535) = Num.ofRat ((2 : ℚ) ^ s) := by
    rw [comb_gain_of_decode]
    norm_num
  have hi : int_gain_of T (Num.ofRat ((2 : ℚ) ^ s)) = s := by
    unfold int_gain_of
    rw [ceil_log2_two_pow, fptoui_int_of_fits T 32 s (by omega)]
    unfold clamp
    rw [if_neg (by omega), if_neg (by omega)]
  have hs : shift_of T (Num.ofRat ((2 : ℚ) ^ s)) = Nat.log 2 s := by
    unfold shift_of
    rw [hi]
    unfold log2_trunc
    rw [if_neg (by omega)]
    have hlt := log_two_lt_self s h1
    exact fptoui_int_of_fits T 16 (Nat.log 2 s) (by omega)
  rw [hc]
  refine ⟨rfl, hi, hs, by rw [hs]; exact log_two_lt_self s h1, ?_⟩
  intro h3
  rw [hs, h3, Nat.log_eq_iff (by norm_num)]
  norm_num

theorem reencode_shift_differs_witness :
    (1 : ℕ) ≤ 3 ∧ (3 : ℕ) ≤ 15 ∧
    shift_of wrap64 (comb_gain_of (decode_gain 3 65535)) = 1 :=
  ⟨by decide, by decide,
    (reencode_shift_differs wrap64 3 (by decide) (by decide)).2.2.2.2 rfl⟩

/-! ## The clamp and the shift at the edges -/

theorem clamp_le (v : ℕ) : clamp v 0 32767 ≤ 32767 := by
  unfold clamp
  split
  · omega
  · split <;> omega

/-- The parts of the clamp that hold on every target: `int_gain` never exceeds
32767; when `ceil(log2(comb_gain))` is an integer `L` with `0 ≤ L < 2^32` the
conversion is exact and `int_gain = min(L, 32767)`, the clamp of the signed value. -/
theorem int_gain_facts (T : Target) (gain : ℚ) :
    int_gain T gain ≤ 32767 ∧
    (∀ L : ℕ, ceil_log2 (comb_gain gain) = .int L → L < 2 ^ 32 →
      int_gain T gain = min L 32767) := by
  refine ⟨clamp_le _, ?_⟩
  intro L hL hlt
  unfold int_gain
  rw [hL, fptoui_int_of_fits T 32 L hlt]
  unfold clamp
  rw [if_neg (by omega)]
  split <;> omega

theorem ceil_log2_hundredth : ceil_log2 (comb_gain (1 / 100)) = .int (-4) := by
  rw [comb_gain_eq]
  unfold ceil_log2
  rw [if_pos (by norm_num)]
  congr 1
  apply clog_eq_of_bounds (by norm_num) <;> norm_num [Num.sq]

/-- C17, at gain 0.01: `comb_gain = 0.0424 ≤ 1` and `ceil(log2(comb_gain)) = -4`;
`configure` converts this negative value to `uint32_t` before the clamp, so
`int_gain` is the clamp of whatever that conversion yields: 32767 on a target that
keeps the low 32 bits (4294967292), not the 0 of a clamp on the signed value. -/
theorem int_gain_negative_logarithm :
    (0 : ℚ) < 1 / 100 ∧ comb_gain (1 / 100) ≤ Num.ofRat 1 ∧
    ceil_log2 (comb_gain (1 / 100)) = .int (-4) ∧
    (∀ T : Target,
      int_gain T (1 / 100) = clamp (T.out_of_range 32 (.int (-4)) % 2 ^ 32) 0 32767) ∧
    wrap64.out_of_range 32 (.int (-4)) = 4294967292 ∧
    int_gain wrap64 (1 / 100) = 32767 := by
  have hT : ∀ T : Target,
      int_gain T (1 / 100) = clamp (T.out_of_range 32 (.int (-4)) % 2 ^ 32) 0 32767 := by
    intro T
    unfold int_gain
    rw [ceil_log2_hundredth]
    simp only [fptoui]
    rw [if_neg (by norm_num)]
  have hw : wrap64.out_of_range 32 (.int (-4)) = 4294967292 := by
    simp only [wrap64]
    decide
  refine ⟨by norm_num, ?_, ceil_log2_hundredth, hT, hw, ?_⟩
  · rw [comb_gain_eq, Num.le_def]
    simp only [Num.ofRat, Num.sq]
    norm_num
  · rw [hT wrap64, hw]
    decide

theorem ceil_log2_fifth : ceil_log2 (comb_gain (1 / 5)) = .int ((0 : ℕ) : ℤ) := by
  rw [comb_gain_eq]
  unfold ceil_log2
  rw [if_pos (by norm_num)]
  congr 1
  apply clog_eq_of_bounds (by norm_num) <;> norm_num [Num.sq]

theorem int_gain_fifth (T : Target) : int_gain T (1 / 5) = 0 := by
  unfold int_gain
  rw [ceil_log2_fifth, fptoui_int_of_fits T 32 0 (by norm_num)]
  decide

/-- For every `int_gain` in [1, 32767] the shift is `⌊log2(int_gain)⌋`, at most 14,
on every target, and the 4-bit mask leaves it as it is. -/
theorem shift_of_positive_int_gain (T : Target) (n : ℕ) (h1 : 1 ≤ n) (h2 : n ≤ 32767) :
    fptoui T 16 (log2_trunc n) = Nat.log 2 n ∧ Nat.log 2 n ≤ 14 ∧
    (Nat.log 2 n &&& 0xF) = Nat.log 2 n := by
  have hlog : Nat.log 2 n < 15 := by
    apply Nat.log_lt_of_lt_pow (by omega)
    omega
  refine ⟨?_, by omega, ?_⟩
  · unfold log2_trunc
    rw [if_neg (by omega)]
    exact fptoui_int_of_fits T 16 _ (by omega)
  · have h := Nat.and_pow_two_sub_one_eq_mod (Nat.log 2 n) 4
    have h' : Nat.log 2 n &&& 15 = Nat.log 2 n % 16 := by simpa using h
    rw [h']
    omega

/-- C18, at `int_gain = 0` (reached by gain 0.2, where `comb_gain = 0.847` and
`ceil(log2(comb_gain)) = 0`): `log2(0)` is `-∞`, which has no integer part, so the
shift is whatever the target makes of converting `-∞` to `uint16_t`; every 16-bit
value is a possible outcome, and the next line divides by the same zero. -/
theorem shift_at_zero_int_gain :
    (∀ T : Target, int_gain T (1 / 5) = 0) ∧
    log2_trunc 0 = Trunc.negInf ∧
    (∀ T : Target, shift T (1 / 5) = T.out_of_range 16 Trunc.negInf % 2 ^ 16) ∧
    (∀ v, v < 2 ^ 16 → ∃ T : Target, shift T (1 / 5) = v) ∧
    scaled_trunc (comb_gain (1 / 5)) 0 = Trunc.posInf := by
  have hs : ∀ T : Target, shift T (1 / 5) = T.out_of_range 16 Trunc.negInf % 2 ^ 16 := by
    intro T
    unfold shift
    rw [int_gain_fifth]
    rfl
  refine ⟨int_gain_fifth, rfl, hs, ?_, ?_⟩
  · intro v hv
    refine ⟨⟨true, fun _ _ => v⟩, ?_⟩
    rw [hs]
    exact Nat.mod_eq_of_lt hv
  · rw [comb_gain_eq]
    unfold scaled_trunc
    rw [if_pos rfl, if_pos (by norm_num)]

theorem shift_at_zero_int_gain_witness :
    (15 : ℕ) < 2 ^ 16 ∧ ∃ T : Target, int_gain T (1 / 5) = 0 ∧ shift T (1 / 5) = 15 := by
  obtain ⟨h1, _, _, h4, _⟩ := shift_at_zero_int_gain
  obtain ⟨T, hT⟩ := h4 15 (by decide)
  exact ⟨by decide, T, h1 T, hT⟩

end VCC
